import Mathlib

/-!
Verification development for the PaperGen_Pro section-generation engine.

Strings are modelled as `List Char`.  Machinery embedded from the source:

* `src/backend/nodes.py` — `node_write_chapter` (sequential section loop with
  consumable image pool and tracked reference pool), `node_parse_pdf`
  (content-addressed parse cache), `_build_vector_store`.
* `src/backend/doc_writer.py` — `generate_docx` (placeholder-driven assembly),
  `_insert_image`, `_add_paragraph_with_math`.
* `src/backend/services.py` — `_get_chapter_images`, `_get_chapter_context`,
  `_extract_json_from_text`.
* `src/backend/pdf_parser.py` — `_enrich_image_contexts`.

External collaborators (LLM generation, embeddings, FAISS retrieval, the
filesystem, LaTeX rendering) are modelled as explicit function parameters.
-/

namespace PaperGen

/-- Python `str.strip()` whitespace class (space, tab, newline, CR, VT, FF). -/
def isPyWS (c : Char) : Bool :=
  c = ' ' || c = '\t' || c = '\n' || c = '\r' || c = '\x0b' || c = '\x0c'

/-- Python `str.lstrip()`. -/
def lstripWS (s : List Char) : List Char := s.dropWhile isPyWS

/-- Python `str.strip()`. -/
def stripWS (s : List Char) : List Char :=
  ((s.dropWhile isPyWS).reverse.dropWhile isPyWS).reverse

/-- Python `str.lstrip("#")` as used on sub-headings in `generate_docx`. -/
def lstripHash (s : List Char) : List Char := s.dropWhile (fun c => c = '#')

/-- Python `str.lower()` restricted to ASCII letters (the only cased
characters produced by the keyword regex `[a-zA-Z]{3,}`). -/
def asciiLower (c : Char) : Char :=
  if 'A' ≤ c && c ≤ 'Z' then Char.ofNat (c.toNat + 32) else c

/-- Lowercase a whole string, as Python `s.lower()` on ASCII/CJK content. -/
def lowerStr (s : List Char) : List Char := s.map asciiLower

/-- Drop `p` if it is a prefix of `s`, returning the remainder. -/
def dropPref : List Char → List Char → Option (List Char)
  | [], s => some s
  | _ :: _, [] => none
  | p :: ps, c :: cs => if p = c then dropPref ps cs else none

/-- Split at the first `']'`: returns (chars before it, chars after it).
This is the semantics of the regex fragment `[^\]]*\]` used by both
placeholder patterns. -/
def rbSplit : List Char → Option (List Char × List Char)
  | [] => none
  | c :: cs =>
    if c = ']' then some ([], cs)
    else
      match rbSplit cs with
      | none => none
      | some (b, r) => some (c :: b, r)

theorem dropPref_length {p s r : List Char} (h : dropPref p s = some r) :
    r.length ≤ s.length := by
  induction p generalizing s with
  | nil =>
    simp only [dropPref, Option.some.injEq] at h
    subst h
    exact Nat.le_refl _
  | cons p ps ih =>
    cases s with
    | nil => exact absurd h (by simp [dropPref])
    | cons c cs =>
      by_cases hpc : p = c
      · simp only [dropPref, hpc, if_true] at h
        exact Nat.le_trans (ih h) (Nat.le_succ _)
      · simp [dropPref, hpc] at h

theorem rbSplit_length {s b r : List Char} (h : rbSplit s = some (b, r)) :
    r.length < s.length := by
  induction s generalizing b r with
  | nil => exact absurd h (by simp [rbSplit])
  | cons c cs ih =>
    by_cases hc : c = ']'
    · simp only [rbSplit, hc, if_true, Option.some.injEq, Prod.mk.injEq] at h
      rw [← h.2]
      exact Nat.lt_succ_self _
    · simp only [rbSplit, hc, if_false] at h
      cases hr : rbSplit cs with
      | none => rw [hr] at h; exact absurd h (by simp)
      | some pr =>
        obtain ⟨b2, r2⟩ := pr
        rw [hr] at h
        simp only [Option.some.injEq, Prod.mk.injEq] at h
        have := ih (b := b2) (r := r2) hr
        rw [← h.2]
        exact Nat.lt_trans this (Nat.lt_succ_self _)

/-- A match of the regex `TAG([^\]]+)\]` at the head of `s`: returns the
captured body (nonempty, no `']'`) and the remainder after the closing
bracket.  Used for `\[INSERT_IMG_([^\]]+)\]` and `\[REF_([^\]]+)\]`. -/
def tagMatch (tag s : List Char) : Option (List Char × List Char) :=
  match dropPref tag s with
  | none => none
  | some after =>
    match rbSplit after with
    | none => none
    | some (body, rest) => if body = [] then none else some (body, rest)

theorem tagMatch_length {tag s b r : List Char} (h : tagMatch tag s = some (b, r)) :
    r.length < s.length := by
  simp only [tagMatch] at h
  split at h
  · exact absurd h (by simp)
  · rename_i after hd
    split at h
    · exact absurd h (by simp)
    · rename_i body rest hr
      split at h
      · exact absurd h (by simp)
      · simp only [Option.some.injEq, Prod.mk.injEq] at h
        rw [← h.2]
        exact Nat.lt_of_lt_of_le (rbSplit_length hr) (dropPref_length hd)

/-- The literal tag of the image-insertion placeholder `[INSERT_IMG_...]`. -/
def imgTagS : List Char := "[INSERT_IMG_".data

/-- The literal tag of the reference-citation placeholder `[REF_...]`. -/
def refTagS : List Char := "[REF_".data

/-- Generic left-to-right non-overlapping regex-style scan: at each position
try `step`; on a match emit the matched value and resume after it, otherwise
shift one character into the current text run.  Returns the leading text and
the (match, following text) pairs — exactly the shape of Python's
`re.split` with one capture group.  `fuel` only forces termination; it is
irrelevant once at least `s.length` (see `scanF_fuel`). -/
def scanF (step : List Char → Option (α × List Char)) :
    Nat → List Char → List Char × List (α × List Char)
  | 0, s => (s, [])
  | _ + 1, [] => ([], [])
  | fuel + 1, c :: cs =>
    match step (c :: cs) with
    | some (a, rest) =>
      let r := scanF step fuel rest
      ([], (a, r.1) :: r.2)
    | none =>
      let r := scanF step fuel cs
      (c :: r.1, r.2)

/-- A `step` function is shrinking when every match consumes input. -/
def Shrinking (step : List Char → Option (α × List Char)) : Prop :=
  ∀ s a r, step s = some (a, r) → r.length < s.length

theorem scanF_fuel {step : List Char → Option (α × List Char)}
    (hstep : Shrinking step) :
    ∀ f1 f2 s, s.length ≤ f1 → s.length ≤ f2 →
      scanF step f1 s = scanF step f2 s := by
  intro f1
  induction f1 with
  | zero =>
    intro f2 s h1 _
    have hs : s = [] := List.length_eq_zero.mp (Nat.le_zero.mp h1)
    subst hs
    cases f2 <;> rfl
  | succ f ih =>
    intro f2 s h1 h2
    cases s with
    | nil => cases f2 <;> rfl
    | cons c cs =>
      cases f2 with
      | zero => exact absurd h2 (by simp)
      | succ f2 =>
        simp only [scanF]
        cases hm : step (c :: cs) with
        | none =>
          have hcs : cs.length ≤ f := Nat.le_of_succ_le_succ h1
          have hcs2 : cs.length ≤ f2 := Nat.le_of_succ_le_succ h2
          rw [ih f2 cs hcs hcs2]
        | some pr =>
          obtain ⟨a, rest⟩ := pr
          have hr : rest.length < (c :: cs).length := hstep _ _ _ hm
          have hr1 : rest.length ≤ f := Nat.le_of_lt_succ (Nat.lt_of_lt_of_le hr h1)
          have hr2 : rest.length ≤ f2 := Nat.le_of_lt_succ (Nat.lt_of_lt_of_le hr h2)
          have e1 : scanF step f rest = scanF step f2 rest := ih f2 rest hr1 hr2
          simp [e1]

/-- The scan with just enough fuel. -/
def scanAll (step : List Char → Option (α × List Char)) (s : List Char) :
    List Char × List (α × List Char) :=
  scanF step s.length s

theorem scanAll_nil (step : List Char → Option (α × List Char)) :
    scanAll step [] = ([], []) := rfl

theorem scanAll_cons_match {step : List Char → Option (α × List Char)}
    (hstep : Shrinking step) {c : Char} {cs rest : List Char} {a : α}
    (hm : step (c :: cs) = some (a, rest)) :
    scanAll step (c :: cs) =
      ([], (a, (scanAll step rest).1) :: (scanAll step rest).2) := by
  have hr : rest.length < (c :: cs).length := hstep _ _ _ hm
  show scanF step (cs.length + 1) (c :: cs) = _
  simp only [scanF, hm]
  rw [scanF_fuel hstep cs.length rest.length rest (Nat.le_of_lt_succ hr) (Nat.le_refl _)]
  rfl

theorem scanAll_cons_nomatch {step : List Char → Option (α × List Char)}
    {c : Char} {cs : List Char}
    (hm : step (c :: cs) = none) :
    scanAll step (c :: cs) =
      ((c :: (scanAll step cs).1), (scanAll step cs).2) := by
  show scanF step (cs.length + 1) (c :: cs) = _
  simp only [scanF, hm]
  rfl

/-- `re.split` of `TAG([^\]]+)\]` with one capture group: leading text plus
(captured identifier, following text) pairs. -/
def tagScan (tag s : List Char) : List Char × List (List Char × List Char) :=
  scanAll (tagMatch tag) s

theorem tagMatch_shrinking (tag : List Char) : Shrinking (tagMatch tag) :=
  fun _ _ _ h => tagMatch_length h

/-- `re.findall(r'TAG([^\]]+)\]', s)` — the captured identifier list, in
order of occurrence. -/
def findTagIds (tag s : List Char) : List (List Char) :=
  ((tagScan tag s).2).map (fun pr => pr.1)

/-! ## Data model: extracted assets (src/backend/state.py) -/

/-- One extracted image record (`images_data` item) after ID assignment:
`{"id": ..., "path": ..., "caption_context": ...}`. -/
structure Image where
  id : List Char
  path : List Char
  captionContext : List Char
deriving DecidableEq, Repr

/-- One bibliographic reference (`references_data` item):
`{"id": ..., "text": ...}`. -/
structure Ref where
  id : List Char
  text : List Char
deriving DecidableEq, Repr

/-! ## `services._get_chapter_images` -/

/-- A document returned by the FAISS retriever, reduced to the metadata
fields `_get_chapter_images` inspects: `type == "image"` and `image_id`. -/
structure RDoc where
  isImage : Bool
  imageId : List Char
deriving DecidableEq, Repr

/-- The `matched_image_ids` loop of `_get_chapter_images`: collect distinct
truthy image ids from image-kind docs, stopping once `k` are found. -/
def matchedImageIds (k : Nat) : List RDoc → List (List Char) → List (List Char)
  | [], acc => acc.reverse
  | d :: ds, acc =>
    if d.isImage && !(d.imageId = []) && !(acc.contains d.imageId) then
      if k ≤ acc.length + 1 then (d.imageId :: acc).reverse
      else matchedImageIds k ds (d.imageId :: acc)
    else matchedImageIds k ds acc

/-- Python dict build `{img["id"]: img for img in all_images}` followed by
lookup: membership is existence, value is the last record with that id. -/
def imgDictGet (images : List Image) (key : List Char) : Option Image :=
  images.reverse.find? (fun img => img.id = key)

/-- `services._get_chapter_images`.  The retrieval outcome is an input:
`none` models "vector_store is None" and also the exception fallback (both
return `all_images` unchanged); `some docs` models a successful
`retriever.invoke` returning `docs`. -/
def getChapterImages (retr : Option (List RDoc)) (allImages : List Image) (k : Nat) :
    List Image :=
  match retr with
  | none => allImages
  | some docs =>
    if allImages = [] then allImages
    else
      let matched := matchedImageIds k docs []
      if matched = [] then []
      else matched.filterMap (fun iid => imgDictGet allImages iid)

/-! ## `nodes.node_write_chapter` section loop -/

/-- Input of one loop iteration: the section's outline entry plus the
opaque-collaborator outcomes for it (retriever docs and generated text). -/
structure SecInput where
  heading : List Char
  points : List (List Char)
  retr : Option (List RDoc)
  content : List Char
deriving DecidableEq, Repr

/-- One cited id: `ref_item = next((r for r in pool if r["id"] == ref_id), None)`,
then `if ref_item and ref_item not in used_references: used_references.append(...)`. -/
def refUseStep (refPool : List Ref) (u : List Ref) (i : List Char) : List Ref :=
  match refPool.find? (fun r => r.id = i) with
  | some r => if u.contains r then u else u ++ [r]
  | none => u

/-- The `used_ref_ids` registration loop: for each cited id, look up the
first pool entry with that id; append it to `used` unless already there.
References are looked up, never removed from the pool. -/
def registerRefs (refPool : List Ref) (used : List Ref) (ids : List (List Char)) :
    List Ref :=
  ids.foldl (refUseStep refPool) used

/-- Mutable loop state of `node_write_chapter`. -/
structure WriteSt where
  pool : List Image
  refPool : List Ref
  used : List Ref
  contentMap : List (List Char × List Char)
deriving DecidableEq, Repr

/-- Per-section observation recorded for the invariant statements. -/
structure SecTrace where
  heading : List Char
  poolBefore : List Image
  refPoolBefore : List Ref
  offered : List Image
  content : List Char
deriving DecidableEq, Repr

/-- One iteration of the `for idx, section in enumerate(sections)` loop:
retrieve chapter images from the available pool, record the generated
content, remove consumed image ids from the pool, register cited
references.  The reference pool is carried through unchanged (the source
never reassigns `available_references_pool`). -/
def chapterStep (st : WriteSt) (sec : SecInput) : WriteSt :=
  let content := sec.content
  let usedImgIds := findTagIds imgTagS content
  let pool2 :=
    if usedImgIds = [] then st.pool
    else st.pool.filter (fun img => !(usedImgIds.contains img.id))
  let usedRefIds := findTagIds refTagS content
  let used2 :=
    if usedRefIds = [] then st.used
    else registerRefs st.refPool st.used usedRefIds
  { pool := pool2, refPool := st.refPool, used := used2,
    contentMap := st.contentMap ++ [(sec.heading, content)] }

/-- The trace entry observed at the start of an iteration. -/
def mkTrace (st : WriteSt) (sec : SecInput) : SecTrace :=
  { heading := sec.heading, poolBefore := st.pool, refPoolBefore := st.refPool,
    offered := getChapterImages sec.retr st.pool 3, content := sec.content }

/-- The whole section loop, returning the per-section traces and the final
state (`sections_content` and `used_references` live in the state). -/
def runChapters (st : WriteSt) : List SecInput → List SecTrace × WriteSt
  | [] => ([], st)
  | sec :: rest =>
    let tr := mkTrace st sec
    let out := runChapters (chapterStep st sec) rest
    (tr :: out.1, out.2)

/-- `node_write_chapter` proper: pools initialised from the full extracted
lists, empty `used_references`. -/
def nodeWriteChapter (imagesData : List Image) (referencesData : List Ref)
    (secs : List SecInput) : List SecTrace × WriteSt :=
  runChapters
    { pool := imagesData, refPool := referencesData, used := [], contentMap := [] }
    secs

/-! ## Lemmas about the section loop -/

theorem imgDictGet_mem {images : List Image} {key : List Char} {img : Image}
    (h : imgDictGet images key = some img) : img ∈ images := by
  have := List.mem_of_find?_eq_some h
  exact (List.mem_reverse).mp this

theorem getChapterImages_subset (retr : Option (List RDoc)) (allImages : List Image)
    (k : Nat) : getChapterImages retr allImages k ⊆ allImages := by
  cases retr with
  | none => exact fun a ha => ha
  | some docs =>
    simp only [getChapterImages]
    split
    · exact fun a ha => ha
    · split
      · exact fun a ha => by simp at ha
      · intro a ha
        obtain ⟨iid, _, hget⟩ := List.mem_filterMap.mp ha
        exact imgDictGet_mem hget

/-- The pool update of one iteration, as an unconditional filter (when no
image token occurs the filter is the identity). -/
theorem chapterStep_pool (st : WriteSt) (sec : SecInput) :
    (chapterStep st sec).pool =
      st.pool.filter
        (fun img => !((findTagIds imgTagS sec.content).contains img.id)) := by
  show (if findTagIds imgTagS sec.content = [] then st.pool
        else st.pool.filter
          (fun img => !((findTagIds imgTagS sec.content).contains img.id))) = _
  split
  · rename_i hnil
    rw [hnil]
    simp
  · rfl

theorem chapterStep_refPool (st : WriteSt) (sec : SecInput) :
    (chapterStep st sec).refPool = st.refPool := rfl

theorem runChapters_trace_offered :
    ∀ (secs : List SecInput) (st : WriteSt),
      ∀ tr ∈ (runChapters st secs).1, tr.offered ⊆ tr.poolBefore := by
  intro secs
  induction secs with
  | nil => intro st tr htr; simp [runChapters] at htr
  | cons sec rest ih =>
    intro st tr htr
    simp only [runChapters, List.mem_cons] at htr
    cases htr with
    | inl h =>
      subst h
      exact getChapterImages_subset sec.retr st.pool 3
    | inr h => exact ih (chapterStep st sec) tr h

theorem runChapters_get_zero_pool :
    ∀ (secs : List SecInput) (st : WriteSt) (h0 : 0 < (runChapters st secs).1.length),
      ((runChapters st secs).1.get ⟨0, h0⟩).poolBefore = st.pool := by
  intro secs st h0
  cases secs with
  | nil => simp [runChapters] at h0
  | cons sec rest => rfl

theorem runChapters_get_zero_content :
    ∀ (secs : List SecInput) (st : WriteSt) (h0 : 0 < (runChapters st secs).1.length),
      ((runChapters st secs).1.get ⟨0, h0⟩).content =
        (secs.get ⟨0, by cases secs with
          | nil => simp [runChapters] at h0
          | cons a l => simp⟩).content := by
  intro secs st h0
  cases secs with
  | nil => simp [runChapters] at h0
  | cons sec rest => rfl

theorem runChapters_pool_step :
    ∀ (secs : List SecInput) (st : WriteSt) (n : Nat)
      (hn1 : n + 1 < (runChapters st secs).1.length)
      (hn0 : n < (runChapters st secs).1.length),
      ((runChapters st secs).1.get ⟨n + 1, hn1⟩).poolBefore =
        ((runChapters st secs).1.get ⟨n, hn0⟩).poolBefore.filter
          (fun img =>
            !((findTagIds imgTagS
                ((runChapters st secs).1.get ⟨n, hn0⟩).content).contains img.id)) := by
  intro secs
  induction secs with
  | nil => intro st n hn1 hn0; simp [runChapters] at hn1
  | cons sec rest ih =>
    intro st n hn1 hn0
    cases n with
    | zero =>
      have hlen : 0 < (runChapters (chapterStep st sec) rest).1.length := by
        have : (runChapters st (sec :: rest)).1.length =
            (runChapters (chapterStep st sec) rest).1.length + 1 := by
          simp [runChapters]
        omega
      have hz := runChapters_get_zero_pool rest (chapterStep st sec) hlen
      show ((runChapters (chapterStep st sec) rest).1.get ⟨0, _⟩).poolBefore = _
      rw [hz, chapterStep_pool]
      rfl
    | succ m =>
      have hlen : (runChapters st (sec :: rest)).1.length =
          (runChapters (chapterStep st sec) rest).1.length + 1 := by
        simp [runChapters]
      have hm1 : m + 1 < (runChapters (chapterStep st sec) rest).1.length := by omega
      have hm0 : m < (runChapters (chapterStep st sec) rest).1.length := by omega
      exact ih (chapterStep st sec) m hm1 hm0

/-- C4.  Sections are processed in order; the image pool offered to section
N+1 is the pool of section N minus exactly the image identifiers whose
insertion tokens occur in section N's generated text, and the retrieval
candidates handed to each section are always drawn from the
currently-available pool. -/
theorem image_pool_sequential_consumption (imagesData : List Image)
    (referencesData : List Ref) (secs : List SecInput) :
    (∀ tr ∈ (nodeWriteChapter imagesData referencesData secs).1,
      tr.offered ⊆ tr.poolBefore) ∧
    (∀ (n : Nat)
      (hn1 : n + 1 < (nodeWriteChapter imagesData referencesData secs).1.length)
      (hn0 : n < (nodeWriteChapter imagesData referencesData secs).1.length),
      ((nodeWriteChapter imagesData referencesData secs).1.get ⟨n + 1, hn1⟩).poolBefore =
        ((nodeWriteChapter imagesData referencesData secs).1.get ⟨n, hn0⟩).poolBefore.filter
          (fun img =>
            !((findTagIds imgTagS
                ((nodeWriteChapter imagesData referencesData secs).1.get
                  ⟨n, hn0⟩).content).contains img.id))) :=
  ⟨runChapters_trace_offered secs _, fun n hn1 hn0 => runChapters_pool_step secs _ n hn1 hn0⟩

/-- Concrete scenario for C4: section 1 consumes `img_000`; the pool offered
to section 2 no longer contains it. -/
def c4Image : Image :=
  { id := "img_000".data, path := "fig0.png".data, captionContext := "Figure 0".data }

/-- Section 1 of the C4 scenario: its generated text carries the
`img_000` insertion token. -/
def c4Sec1 : SecInput :=
  { heading := "1. Intro".data, points := [],
    retr := none, content := "text\n\n[INSERT_IMG_img_000]\n\nmore".data }

/-- Section 2 of the C4 scenario. -/
def c4Sec2 : SecInput :=
  { heading := "2. Methods".data, points := [],
    retr := none, content := "tail text".data }

theorem image_pool_sequential_consumption_witness :
    ((nodeWriteChapter [c4Image] [] [c4Sec1, c4Sec2]).1.get
        ⟨0 + 1, by decide⟩).poolBefore = [] ∧
    c4Image ∉ ((nodeWriteChapter [c4Image] [] [c4Sec1, c4Sec2]).1.get
        ⟨0 + 1, by decide⟩).poolBefore := by
  have h := (image_pool_sequential_consumption [c4Image] [] [c4Sec1, c4Sec2]).2 0
    (by decide) (by decide)
  have hval :
      ((nodeWriteChapter [c4Image] [] [c4Sec1, c4Sec2]).1.get
          ⟨0, by decide⟩).poolBefore.filter
        (fun img =>
          !((findTagIds imgTagS
              ((nodeWriteChapter [c4Image] [] [c4Sec1, c4Sec2]).1.get
                ⟨0, by decide⟩).content).contains img.id)) = [] := by decide
  refine ⟨h.trans hval, ?_⟩
  rw [h.trans hval]
  simp

/-! ## Reference registration invariants -/

/-- Every entry of `used_references` is exactly the first pool entry
carrying its id (loop invariant of the registration code). -/
def RefInv (pool used : List Ref) : Prop :=
  ∀ r ∈ used, pool.find? (fun x => x.id = r.id) = some r

theorem refUseStep_inv {pool u : List Ref} {i : List Char} (h : RefInv pool u) :
    RefInv pool (refUseStep pool u i) := by
  unfold refUseStep
  split
  · rename_i r hf
    split
    · exact h
    · intro r1 hr1
      rcases List.mem_append.mp hr1 with hmem | hmem
      · exact h r1 hmem
      · have hr : r1 = r := by simpa using hmem
        subst hr
        have hid : r1.id = i := by
          have := List.find?_some hf
          simpa using this
        simp only [hid]
        exact hf
  · exact h

theorem refUseStep_nodup {pool u : List Ref} {i : List Char}
    (hinv : RefInv pool u) (hnd : (u.map Ref.id).Nodup) :
    ((refUseStep pool u i).map Ref.id).Nodup := by
  unfold refUseStep
  split
  · rename_i r hf
    split
    · exact hnd
    · rename_i hcon
      rw [List.map_append]
      refine List.Nodup.append hnd (List.nodup_singleton _) ?_
      intro a ha hb
      simp only [List.map_cons, List.map_nil, List.mem_singleton] at hb
      subst hb
      obtain ⟨r1, hr1mem, hr1id⟩ := List.mem_map.mp ha
      have h1 := hinv r1 hr1mem
      rw [hr1id] at h1
      have hid : r.id = i := by
        have := List.find?_some hf
        simpa using this
      rw [hid] at h1
      rw [hf] at h1
      have heq : r1 = r := by simpa using h1.symm
      subst heq
      exact hcon (by simpa using hr1mem)
  · exact hnd

theorem registerRefs_inv (pool : List Ref) :
    ∀ (ids : List (List Char)) (used : List Ref), RefInv pool used →
      RefInv pool (registerRefs pool used ids) := by
  intro ids
  induction ids with
  | nil => intro used h; exact h
  | cons i is ih =>
    intro used h
    exact ih (refUseStep pool used i) (refUseStep_inv h)

theorem registerRefs_nodup (pool : List Ref) :
    ∀ (ids : List (List Char)) (used : List Ref), RefInv pool used →
      (used.map Ref.id).Nodup →
      ((registerRefs pool used ids).map Ref.id).Nodup := by
  intro ids
  induction ids with
  | nil => intro used _ h; exact h
  | cons i is ih =>
    intro used hinv hnd
    exact ih (refUseStep pool used i) (refUseStep_inv hinv) (refUseStep_nodup hinv hnd)

theorem chapterStep_used (st : WriteSt) (sec : SecInput)
    (hinv : RefInv st.refPool st.used) :
    RefInv st.refPool (chapterStep st sec).used ∧
      ((st.used.map Ref.id).Nodup → (((chapterStep st sec).used).map Ref.id).Nodup) := by
  show RefInv st.refPool
      (if findTagIds refTagS sec.content = [] then st.used
       else registerRefs st.refPool st.used (findTagIds refTagS sec.content)) ∧ _
  constructor
  · split
    · exact hinv
    · exact registerRefs_inv st.refPool _ st.used hinv
  · intro hnd
    show ((if findTagIds refTagS sec.content = [] then st.used
          else registerRefs st.refPool st.used (findTagIds refTagS sec.content)).map
            Ref.id).Nodup
    split
    · exact hnd
    · exact registerRefs_nodup st.refPool _ st.used hinv hnd

theorem runChapters_refPool :
    ∀ (secs : List SecInput) (st : WriteSt),
      (runChapters st secs).2.refPool = st.refPool := by
  intro secs
  induction secs with
  | nil => intro st; rfl
  | cons sec rest ih =>
    intro st
    show (runChapters (chapterStep st sec) rest).2.refPool = st.refPool
    rw [ih (chapterStep st sec)]
    rfl

theorem runChapters_trace_refPool :
    ∀ (secs : List SecInput) (st : WriteSt),
      ∀ tr ∈ (runChapters st secs).1, tr.refPoolBefore = st.refPool := by
  intro secs
  induction secs with
  | nil => intro st tr htr; simp [runChapters] at htr
  | cons sec rest ih =>
    intro st tr htr
    simp only [runChapters, List.mem_cons] at htr
    cases htr with
    | inl h => subst h; rfl
    | inr h => exact ih (chapterStep st sec) tr h

theorem runChapters_used_nodup :
    ∀ (secs : List SecInput) (st : WriteSt), RefInv st.refPool st.used →
      (st.used.map Ref.id).Nodup →
      RefInv st.refPool (runChapters st secs).2.used ∧
        (((runChapters st secs).2.used).map Ref.id).Nodup := by
  intro secs
  induction secs with
  | nil => intro st hinv hnd; exact ⟨hinv, hnd⟩
  | cons sec rest ih =>
    intro st hinv hnd
    have hstep := chapterStep_used st sec hinv
    have := ih (chapterStep st sec) hstep.1 (hstep.2 hnd)
    exact this

/-- `_add_paragraph_with_math` citation resolution: the 1-based index of the
first `used_references` entry with the cited id. -/
def citeIndex (used : List Ref) (refId : List Char) : Option Nat :=
  (used.findIdx? (fun r => r.id = refId)).map (fun i => i + 1)

/-- C6.  The reference pool is never mutated by the section loop: every
section sees the full initial pool, the final pool equals the initial one,
and the "used references" sequence records each identifier at most once
(so a later citation of the same identifier resolves to the same, already
assigned, global number). -/
theorem references_never_removed (imagesData : List Image)
    (referencesData : List Ref) (secs : List SecInput) :
    (∀ tr ∈ (nodeWriteChapter imagesData referencesData secs).1,
      tr.refPoolBefore = referencesData) ∧
    (nodeWriteChapter imagesData referencesData secs).2.refPool = referencesData ∧
    (((nodeWriteChapter imagesData referencesData secs).2.used).map Ref.id).Nodup := by
  refine ⟨runChapters_trace_refPool secs _, runChapters_refPool secs _, ?_⟩
  have h := runChapters_used_nodup secs
    { pool := imagesData, refPool := referencesData, used := [], contentMap := [] }
    (by intro r hr; simp at hr) (by simp)
  exact h.2

/-- One reference for the C6 scenario. -/
def c6Ref : Ref := { id := "ref_003".data, text := "Doe, A. (2021). ML.".data }

/-- Two sections that both cite `ref_003`. -/
def c6Secs : List SecInput :=
  [{ heading := "1".data, points := [], retr := none,
     content := "alpha [REF_ref_003] beta".data },
   { heading := "2".data, points := [], retr := none,
     content := "gamma [REF_ref_003] delta".data }]

/-! ## C2: reference ordering stability -/

/-- One step of first-occurrence deduplication. -/
def dedupStep (acc : List (List Char)) (x : List Char) : List (List Char) :=
  if acc.contains x then acc else acc ++ [x]

/-- First-occurrence deduplication: keep each element at the position of its
first occurrence. -/
def dedupKeepFirst (l : List (List Char)) : List (List Char) :=
  l.foldl dedupStep []

/-- The claim's reference-identifier sequence: identifiers of pool
references, in order of first textual occurrence across the section texts
(concatenated in document order). -/
def validRefIds (refPool : List Ref) (secContents : List (List Char)) :
    List (List Char) :=
  (secContents.flatMap (fun c => findTagIds refTagS c)).filter
    (fun i => (refPool.find? (fun r => r.id = i)).isSome)

theorem refUseStep_ids {pool u : List Ref} {i : List Char} (hinv : RefInv pool u) :
    (refUseStep pool u i).map Ref.id =
      if (pool.find? (fun r => r.id = i)).isSome then dedupStep (u.map Ref.id) i
      else u.map Ref.id := by
  unfold refUseStep
  cases hf : pool.find? (fun r => r.id = i) with
  | none => simp
  | some r =>
    have hid : r.id = i := by
      have := List.find?_some hf
      simpa using this
    have hcon : u.contains r = (u.map Ref.id).contains i := by
      by_cases hmem : r ∈ u
      · have : i ∈ u.map Ref.id := by
          exact List.mem_map.mpr ⟨r, hmem, hid⟩
        simp [hmem, this]
      · have : i ∉ u.map Ref.id := by
          intro hmap
          obtain ⟨r1, hr1mem, hr1id⟩ := List.mem_map.mp hmap
          have h1 := hinv r1 hr1mem
          rw [hr1id, ← hid] at h1
          rw [hid, hf] at h1
          have : r1 = r := by simpa using h1.symm
          exact hmem (this ▸ hr1mem)
        simp [hmem, this]
    simp only [hf, Option.isSome_some, if_true, dedupStep]
    rw [← hcon]
    split
    · rfl
    · simp [hid]

theorem registerRefs_ids (pool : List Ref) :
    ∀ (ids : List (List Char)) (u : List Ref), RefInv pool u →
      (registerRefs pool u ids).map Ref.id =
        (ids.filter (fun i => (pool.find? (fun r => r.id = i)).isSome)).foldl
          dedupStep (u.map Ref.id) := by
  intro ids
  induction ids with
  | nil => intro u _; rfl
  | cons i is ih =>
    intro u hinv
    have hstep : registerRefs pool u (i :: is) = registerRefs pool (refUseStep pool u i) is := rfl
    rw [hstep, ih (refUseStep pool u i) (refUseStep_inv hinv), refUseStep_ids hinv]
    by_cases hv : (pool.find? (fun r => r.id = i)).isSome
    · simp [hv, List.filter_cons]
    · simp [hv, List.filter_cons]

theorem chapterStep_used_eq (st : WriteSt) (sec : SecInput) :
    (chapterStep st sec).used =
      registerRefs st.refPool st.used (findTagIds refTagS sec.content) := by
  show (if findTagIds refTagS sec.content = [] then st.used
        else registerRefs st.refPool st.used (findTagIds refTagS sec.content)) = _
  split
  · rename_i hnil
    rw [hnil]
    rfl
  · rfl

theorem runChapters_used_ids :
    ∀ (secs : List SecInput) (st : WriteSt), RefInv st.refPool st.used →
      ((runChapters st secs).2.used).map Ref.id =
        (validRefIds st.refPool (secs.map SecInput.content)).foldl
          dedupStep (st.used.map Ref.id) := by
  intro secs
  induction secs with
  | nil => intro st _; rfl
  | cons sec rest ih =>
    intro st hinv
    show ((runChapters (chapterStep st sec) rest).2.used).map Ref.id = _
    have hinv2 : RefInv (chapterStep st sec).refPool (chapterStep st sec).used := by
      rw [chapterStep_refPool, chapterStep_used_eq]
      exact registerRefs_inv st.refPool _ st.used hinv
    rw [ih (chapterStep st sec) hinv2, chapterStep_refPool, chapterStep_used_eq,
      registerRefs_ids st.refPool _ st.used hinv]
    simp only [validRefIds, List.map_cons, List.flatMap_cons, List.filter_append,
      List.foldl_append]

theorem findIdx_of_nodup_ids :
    ∀ (used : List Ref), ((used.map Ref.id).Nodup) →
      ∀ (n : Nat) (hn : n < used.length),
        used.findIdx? (fun r => r.id = (used.get ⟨n, hn⟩).id) = some n := by
  intro used
  induction used with
  | nil => intro _ n hn; exact absurd hn (by simp)
  | cons r0 rest ih =>
    intro hnd n hn
    cases n with
    | zero => simp [List.findIdx?_cons]
    | succ m =>
      have hm : m < rest.length := Nat.lt_of_succ_lt_succ hn
      have hget : ((r0 :: rest).get ⟨m + 1, hn⟩) = rest.get ⟨m, hm⟩ := by
        simp
      rw [hget]
      have hnd2 : (rest.map Ref.id).Nodup := (List.nodup_cons.mp hnd).2
      have hne : ¬(r0.id = (rest.get ⟨m, hm⟩).id) := by
        intro heq
        have hmem : (rest.get ⟨m, hm⟩).id ∈ rest.map Ref.id :=
          List.mem_map.mpr ⟨rest.get ⟨m, hm⟩, List.get_mem rest m hm, rfl⟩
        exact (List.nodup_cons.mp hnd).1 (heq ▸ hmem)
      have hcons : (r0 :: rest).findIdx? (fun r => r.id = (rest.get ⟨m, hm⟩).id) =
          if (r0.id = (rest.get ⟨m, hm⟩).id : Bool) then some 0
          else ((rest.findIdx? (fun r => r.id = (rest.get ⟨m, hm⟩).id)).map
            (fun i => i + 1)) := by
        simp [List.findIdx?_cons]
      rw [hcons]
      rw [if_neg (by simpa using hne)]
      rw [ih hnd2 m hm]
      rfl

/-- C2.  The final "used references" sequence is exactly the
first-occurrence deduplication of the pool-resident reference identifiers
cited across the section texts in document order, and the citation number
substituted by `_add_paragraph_with_math` for each used identifier is its
1-based position in that sequence. -/
theorem reference_ordering_stability (imagesData : List Image)
    (referencesData : List Ref) (secs : List SecInput) :
    ((nodeWriteChapter imagesData referencesData secs).2.used).map Ref.id =
      dedupKeepFirst (validRefIds referencesData (secs.map SecInput.content)) ∧
    (∀ (n : Nat) (hn : n < (nodeWriteChapter imagesData referencesData secs).2.used.length),
      citeIndex (nodeWriteChapter imagesData referencesData secs).2.used
          (((nodeWriteChapter imagesData referencesData secs).2.used).get ⟨n, hn⟩).id =
        some (n + 1)) := by
  constructor
  · have h := runChapters_used_ids secs
      { pool := imagesData, refPool := referencesData, used := [], contentMap := [] }
      (by intro r hr; simp at hr)
    exact h
  · intro n hn
    have hnd := (references_never_removed imagesData referencesData secs).2.2
    unfold citeIndex
    rw [findIdx_of_nodup_ids _ hnd n hn]
    rfl

/-- Two references and two sections for the C2 witness: `ref_001` is cited
twice (across both sections) and `ref_000` once, plus one hallucinated id. -/
def c2Refs : List Ref :=
  [{ id := "ref_000".data, text := "Smith 2020".data },
   { id := "ref_001".data, text := "Doe 2021".data }]

/-- Sections for the C2 witness. -/
def c2Secs : List SecInput :=
  [{ heading := "1".data, points := [], retr := none,
     content := "a [REF_ref_001] b [REF_bogus] c".data },
   { heading := "2".data, points := [], retr := none,
     content := "d [REF_ref_000] e [REF_ref_001] f".data }]

theorem reference_ordering_stability_witness :
    ((nodeWriteChapter [] c2Refs c2Secs).2.used).map Ref.id =
      ["ref_001".data, "ref_000".data] ∧
    citeIndex (nodeWriteChapter [] c2Refs c2Secs).2.used
        (((nodeWriteChapter [] c2Refs c2Secs).2.used).get ⟨0, by decide⟩).id = some 1 ∧
    citeIndex (nodeWriteChapter [] c2Refs c2Secs).2.used
        (((nodeWriteChapter [] c2Refs c2Secs).2.used).get ⟨1, by decide⟩).id = some 2 := by
  have h := reference_ordering_stability [] c2Refs c2Secs
  refine ⟨?_, h.2 0 (by decide), h.2 1 (by decide)⟩
  rw [h.1]
  decide

theorem references_never_removed_witness :
    (∀ tr ∈ (nodeWriteChapter [] [c6Ref] c6Secs).1,
      tr.refPoolBefore = [c6Ref]) ∧
    (nodeWriteChapter [] [c6Ref] c6Secs).2.refPool = [c6Ref] ∧
    (nodeWriteChapter [] [c6Ref] c6Secs).2.used = [c6Ref] ∧
    citeIndex (nodeWriteChapter [] [c6Ref] c6Secs).2.used ("ref_003".data) = some 1 := by
  have h := references_never_removed [] [c6Ref] c6Secs
  exact ⟨h.1, h.2.1, by decide, by decide⟩

/-! ## `doc_writer._add_paragraph_with_math`: math / citation scanner

The pattern `(?s)(\$\$.+?\$\$|\$.+?\$|\[REF_[^\]]+\])` is an alternation
tried left to right at each position; `.+?` is non-greedy. -/

/-- Find the first occurrence of `"$$"`: (chars before it, chars after it). -/
def ddFind : List Char → Option (List Char × List Char)
  | [] => none
  | [_] => none
  | c :: c2 :: r =>
    if c = '$' ∧ c2 = '$' then some ([], r)
    else
      match ddFind (c2 :: r) with
      | none => none
      | some (b, rest) => some (c :: b, rest)

/-- Find the first `'$'`: (chars before it, chars after it). -/
def dFind : List Char → Option (List Char × List Char)
  | [] => none
  | c :: r =>
    if c = '$' then some ([], r)
    else
      match dFind r with
      | none => none
      | some (b, rest) => some (c :: b, rest)

/-- `.+?\$\$`: at least one inner char, then the nearest `"$$"`. -/
def ddClose : List Char → Option (List Char × List Char)
  | [] => none
  | c :: cs =>
    match ddFind cs with
    | none => none
    | some (b, rest) => some (c :: b, rest)

/-- `.+?\$`: at least one inner char, then the nearest `'$'`. -/
def dClose : List Char → Option (List Char × List Char)
  | [] => none
  | c :: cs =>
    match dFind cs with
    | none => none
    | some (b, rest) => some (c :: b, rest)

/-- The `\$.+?\$` alternative at the current position (which must start
with `'$'`, already consumed by the caller). -/
def dollarAlt (cs : List Char) : Option (List Char × List Char) :=
  match dClose cs with
  | some (inner, rest) => some ('$' :: (inner ++ ['$']), rest)
  | none => none

/-- The math alternatives after a leading `'$'`: try `\$\$.+?\$\$` first,
then `\$.+?\$`. -/
def mathMatchTail : List Char → Option (List Char × List Char)
  | [] => none
  | c2 :: cs2 =>
    if c2 = '$' then
      match ddClose cs2 with
      | some (inner, rest) =>
        some ('$' :: '$' :: (inner ++ ('$' :: '$' :: [])), rest)
      | none => dollarAlt (c2 :: cs2)
    else dollarAlt (c2 :: cs2)

/-- Try the three alternatives of the math/citation pattern at the current
position, returning the full matched text and the remainder.  When the text
starts with `'$'` only the math alternatives can apply; otherwise only the
citation alternative can. -/
def mathRefMatch : List Char → Option (List Char × List Char)
  | [] => none
  | c :: cs =>
    if c = '$' then mathMatchTail cs
    else
      match tagMatch refTagS (c :: cs) with
      | some (body, rest) => some (refTagS ++ body ++ [']'], rest)
      | none => none

theorem ddFind_length {s b r : List Char} (h : ddFind s = some (b, r)) :
    r.length < s.length := by
  induction s generalizing b r with
  | nil => exact absurd h (by simp [ddFind])
  | cons c cs ih =>
    cases cs with
    | nil => exact absurd h (by simp [ddFind])
    | cons c2 cs2 =>
      simp only [ddFind] at h
      split at h
      · simp only [Option.some.injEq, Prod.mk.injEq] at h
        rw [← h.2]
        exact Nat.lt_trans (Nat.lt_succ_self _) (Nat.lt_succ_self _)
      · cases hdf : ddFind (c2 :: cs2) with
        | none => rw [hdf] at h; exact absurd h (by simp)
        | some pr =>
          obtain ⟨b2, r2⟩ := pr
          rw [hdf] at h
          simp only [Option.some.injEq, Prod.mk.injEq] at h
          rw [← h.2]
          exact Nat.lt_trans (ih hdf) (Nat.lt_succ_self _)

theorem dFind_length {s b r : List Char} (h : dFind s = some (b, r)) :
    r.length < s.length := by
  induction s generalizing b r with
  | nil => exact absurd h (by simp [dFind])
  | cons c cs ih =>
    simp only [dFind] at h
    split at h
    · simp only [Option.some.injEq, Prod.mk.injEq] at h
      rw [← h.2]
      exact Nat.lt_succ_self _
    · cases hdf : dFind cs with
      | none => rw [hdf] at h; exact absurd h (by simp)
      | some pr =>
        obtain ⟨b2, r2⟩ := pr
        rw [hdf] at h
        simp only [Option.some.injEq, Prod.mk.injEq] at h
        rw [← h.2]
        exact Nat.lt_trans (ih hdf) (Nat.lt_succ_self _)

theorem ddClose_length {s b r : List Char} (h : ddClose s = some (b, r)) :
    r.length < s.length := by
  cases s with
  | nil => exact absurd h (by simp [ddClose])
  | cons c cs =>
    simp only [ddClose] at h
    cases hdf : ddFind cs with
    | none => rw [hdf] at h; exact absurd h (by simp)
    | some pr =>
      obtain ⟨b2, r2⟩ := pr
      rw [hdf] at h
      simp only [Option.some.injEq, Prod.mk.injEq] at h
      rw [← h.2]
      exact Nat.lt_trans (ddFind_length hdf) (Nat.lt_succ_self _)

theorem dClose_length {s b r : List Char} (h : dClose s = some (b, r)) :
    r.length < s.length := by
  cases s with
  | nil => exact absurd h (by simp [dClose])
  | cons c cs =>
    simp only [dClose] at h
    cases hdf : dFind cs with
    | none => rw [hdf] at h; exact absurd h (by simp)
    | some pr =>
      obtain ⟨b2, r2⟩ := pr
      rw [hdf] at h
      simp only [Option.some.injEq, Prod.mk.injEq] at h
      rw [← h.2]
      exact Nat.lt_trans (dFind_length hdf) (Nat.lt_succ_self _)

theorem dollarAlt_length {cs m r : List Char} (h : dollarAlt cs = some (m, r)) :
    r.length < cs.length := by
  simp only [dollarAlt] at h
  cases hd : dClose cs with
  | none => rw [hd] at h; exact absurd h (by simp)
  | some pr =>
    obtain ⟨inner, rest⟩ := pr
    rw [hd] at h
    simp only [Option.some.injEq, Prod.mk.injEq] at h
    rw [← h.2]
    exact dClose_length hd

theorem mathMatchTail_length {cs m r : List Char} (h : mathMatchTail cs = some (m, r)) :
    r.length < cs.length := by
  cases cs with
  | nil => exact absurd h (by simp [mathMatchTail])
  | cons c2 cs2 =>
    simp only [mathMatchTail] at h
    split at h
    · cases hdc : ddClose cs2 with
      | some pr =>
        obtain ⟨inner, rest⟩ := pr
        rw [hdc] at h
        simp only [Option.some.injEq, Prod.mk.injEq] at h
        rw [← h.2]
        exact Nat.lt_trans (ddClose_length hdc) (Nat.lt_succ_self _)
      | none =>
        rw [hdc] at h
        exact dollarAlt_length h
    · exact dollarAlt_length h

theorem mathRefMatch_shrinking : Shrinking mathRefMatch := by
  intro s m r h
  cases s with
  | nil => exact absurd h (by simp [mathRefMatch])
  | cons c cs =>
    simp only [mathRefMatch] at h
    split at h
    · exact Nat.lt_trans (mathMatchTail_length h) (Nat.lt_succ_self _)
    · cases ht : tagMatch refTagS (c :: cs) with
      | none => rw [ht] at h; exact absurd h (by simp)
      | some pr =>
        obtain ⟨body, rest⟩ := pr
        rw [ht] at h
        simp only [Option.some.injEq, Prod.mk.injEq] at h
        rw [← h.2]
        exact tagMatch_length ht

/-! ## `doc_writer` document assembly -/

/-- A run inside a paragraph (`p.add_run`, math picture runs, superscript
citation numbers). -/
inductive Run where
  | text : List Char → Run
  | mathPic : List Char → Bool → Run
  | cite : Nat → Run
deriving DecidableEq, Repr

/-- A content block of the assembled document. -/
inductive Block where
  | heading : Nat → List Char → Block
  | para : List Run → Block
  | picture : Image → Block
  | figCaption : List Char → Block
  | refItem : Nat → List Char → Block
deriving DecidableEq, Repr

/-- The flat alternating parts list returned by `re.split` (text and
matched parts interleaved, empty strings included). -/
def flatParts (pr : List Char × List (List Char × List Char)) : List (List Char) :=
  pr.1 :: pr.2.flatMap (fun p => [p.1, p.2])

/-- `re.split(r'(?s)(\$\$.+?\$\$|\$.+?\$|\[REF_[^\]]+\])', text)`. -/
def mathRefParts (s : List Char) : List (List Char) :=
  flatParts (scanAll mathRefMatch s)

/-- Python slice `s[a:-b]`. -/
def pySlice (a b : Nat) (s : List Char) : List Char :=
  (s.drop a).take (s.length - a - b)

/-- `s.replace("\n", " ")`. -/
def replNl (s : List Char) : List Char :=
  s.map (fun c => if c = '\n' then ' ' else c)

/-- The literal `"$$"`. -/
def ddS : List Char := "$$".data

/-- The literal `"$"`. -/
def dS : List Char := "$".data

/-- The literal `"]"`. -/
def rbS : List Char := "]".data

/-- The part handler of `_add_paragraph_with_math`: empty parts are
skipped; block math, inline math and citation placeholders are resolved;
everything else (including unresolvable parts) is kept as a literal text
run.  `renderOk` models whether `_render_latex_to_image` returns a usable
path (external service + cache). -/
def handlePart (renderOk : List Char → Bool) (usedRefs : Option (List Ref))
    (part : List Char) : List Run :=
  if part = [] then []
  else if ddS.isPrefixOf part && ddS.isSuffixOf part then
    let mathStr := stripWS (replNl (pySlice 2 2 part))
    if renderOk mathStr then [Run.mathPic mathStr false] else [Run.text part]
  else if dS.isPrefixOf part && dS.isSuffixOf part then
    let mathStr := stripWS (replNl (pySlice 1 1 part))
    if renderOk mathStr then [Run.mathPic mathStr true] else [Run.text part]
  else if refTagS.isPrefixOf part && rbS.isSuffixOf part then
    match usedRefs with
    | some used =>
      let refId := pySlice 5 1 part
      match used.findIdx? (fun r => r.id = refId) with
      | some i => [Run.cite (i + 1)]
      | none => [Run.text part]
    | none => [Run.text part]
  else [Run.text part]

/-- `_add_paragraph_with_math`: one paragraph whose runs come from the
scanned parts. -/
def addParagraphWithMath (renderOk : List Char → Bool) (usedRefs : Option (List Ref))
    (text : List Char) : Block :=
  Block.para ((mathRefParts text).flatMap (handlePart renderOk usedRefs))

/-- Step consuming the separator `"\n\n"` for `str.split("\n\n")`. -/
def nnStep (s : List Char) : Option (Unit × List Char) :=
  (dropPref ('\n' :: '\n' :: []) s).map (fun r => ((), r))

theorem dropPref_length_eq {p s r : List Char} (h : dropPref p s = some r) :
    r.length + p.length = s.length := by
  induction p generalizing s with
  | nil =>
    simp only [dropPref, Option.some.injEq] at h
    subst h
    simp
  | cons p ps ih =>
    cases s with
    | nil => exact absurd h (by simp [dropPref])
    | cons c cs =>
      by_cases hpc : p = c
      · simp only [dropPref, hpc, if_true] at h
        have := ih h
        simp only [List.length_cons]
        omega
      · simp [dropPref, hpc] at h

theorem nnStep_shrinking : Shrinking nnStep := by
  intro s a r h
  simp only [nnStep] at h
  cases hd : dropPref ('\n' :: '\n' :: []) s with
  | none => rw [hd] at h; exact absurd h (by simp)
  | some r2 =>
    rw [hd] at h
    simp only [Option.map_some', Option.some.injEq] at h
    have := dropPref_length_eq hd
    have hr : r = r2 := by
      cases h
      rfl
    subst hr
    simp only [List.length_cons, List.length_nil] at this
    omega

/-- `text.split("\n\n")` (no collapsing of adjacent separators). -/
def splitNN (s : List Char) : List (List Char) :=
  let pr := scanAll nnStep s
  pr.1 :: pr.2.map (fun p => p.2)

/-- The literal `"### "`. -/
def h3S : List Char := "### ".data

/-- The literal `"## "`. -/
def h2S : List Char := "## ".data

/-- Resolution of one even (text) part of `generate_docx`: strip, split on
blank lines, and turn each nonempty paragraph into a sub-heading, a skipped
`##` line, or a math/citation-resolved paragraph. -/
def processTextChunk (renderOk : List Char → Bool) (usedRefs : Option (List Ref))
    (t : List Char) : List Block :=
  let tc := stripWS t
  if tc = [] then []
  else
    (splitNN tc).flatMap (fun para0 =>
      let p := stripWS para0
      if p = [] then []
      else if h3S.isPrefixOf p then [Block.heading 2 (stripWS (lstripHash p))]
      else if h2S.isPrefixOf p then []
      else [addParagraphWithMath renderOk usedRefs p])

/-- Python dict `{img.get("id"): img for img in images_data if img.get("id")}`
followed by lookup: truthy ids only, last record with a given id wins. -/
def imgDictGetNE (images : List Image) (key : List Char) : Option Image :=
  ((images.filter (fun i => !(i.id = []))).reverse).find? (fun i => i.id = key)

/-- `_insert_image`: skipped entirely when the image file does not exist;
otherwise a picture block plus a caption block (short captions kept,
otherwise the literal `"Figure"`). -/
def insertImage (fileExists : List Char → Bool) (img : Image) : List Block :=
  if fileExists img.path then
    [Block.picture img,
     Block.figCaption
       (if !(img.captionContext = []) && img.captionContext.length < 200
        then stripWS img.captionContext
        else "Figure".data)]
  else []

/-- Resolution of one section body in `generate_docx`: split the content on
image-insertion placeholders; resolve text parts with
`processTextChunk`; for each captured id (stripped), insert the image if it
exists in the dict (and record the id as inserted), otherwise drop it with
a warning.  Returns the blocks and the inserted ids in order. -/
def processContent (renderOk fileExists : List Char → Bool)
    (imagesData : List Image) (usedRefs : List Ref) (content : List Char) :
    List Block × List (List Char) :=
  let pr := tagScan imgTagS content
  let tailResults := pr.2.map (fun p =>
    let rawId := stripWS p.1
    match imgDictGetNE imagesData rawId with
    | some img =>
      (insertImage fileExists img ++ processTextChunk renderOk (some usedRefs) p.2,
       [rawId])
    | none => (processTextChunk renderOk (some usedRefs) p.2, ([] : List (List Char))))
  (processTextChunk renderOk (some usedRefs) pr.1 ++
     tailResults.flatMap (fun q => q.1),
   tailResults.flatMap (fun q => q.2))

/-- The fallback paragraph for a section with no generated content. -/
def missingMsg (heading : List Char) : List Char :=
  "（".data ++ heading ++ " 的正文尚未生成）".data

/-- One section of `generate_docx`: body blocks plus inserted image ids. -/
def resolveSection (renderOk fileExists : List Char → Bool)
    (imagesData : List Image) (usedRefs : List Ref)
    (heading content : List Char) : List Block × List (List Char) :=
  if content = [] then ([Block.para [Run.text (missingMsg heading)]], [])
  else processContent renderOk fileExists imagesData usedRefs content

/-- One outline section (heading plus bullet points). -/
structure OutlineSec where
  heading : List Char
  points : List (List Char)
deriving DecidableEq, Repr

/-- The curated outline handed to `generate_docx`. -/
structure Outline where
  title : List Char
  abstractPoints : List (List Char)
  sections : List OutlineSec
deriving DecidableEq, Repr

/-- `sections_content.get(heading, "")` on the assoc list built by the
section loop (later assignments to the same heading win, like a dict). -/
def contentGet (m : List (List Char × List Char)) (h : List Char) : List Char :=
  match m.reverse.find? (fun p => p.1 = h) with
  | some p => p.2
  | none => []

/-- The per-section resolved outputs of `generate_docx`, in document
order: (heading, body blocks, inserted ids). -/
def docSections (renderOk fileExists : List Char → Bool) (outline : Outline)
    (sectionsContent : List (List Char × List Char)) (imagesData : List Image)
    (usedRefs : List Ref) : List (List Char × (List Block × List (List Char))) :=
  outline.sections.map (fun sec =>
    (sec.heading,
     resolveSection renderOk fileExists imagesData usedRefs sec.heading
       (contentGet sectionsContent sec.heading)))

/-- All image ids consumed at placeholders across the whole document
(`img_info["_inserted"] = True` sites), in order. -/
def docInsertedIds (renderOk fileExists : List Char → Bool) (outline : Outline)
    (sectionsContent : List (List Char × List Char)) (imagesData : List Image)
    (usedRefs : List Ref) : List (List Char) :=
  (docSections renderOk fileExists outline sectionsContent imagesData usedRefs).flatMap
    (fun s => s.2.2)

/-- The image records flagged `_inserted` (dict lookups of the consumed
ids). -/
def flaggedImages (renderOk fileExists : List Char → Bool) (outline : Outline)
    (sectionsContent : List (List Char × List Char)) (imagesData : List Image)
    (usedRefs : List Ref) : List Image :=
  (docInsertedIds renderOk fileExists outline sectionsContent imagesData
    usedRefs).filterMap (fun iid => imgDictGetNE imagesData iid)

/-- `remaining_images`: the extracted images never flagged as inserted, in
original extraction order. -/
def appendixImages (renderOk fileExists : List Char → Bool) (outline : Outline)
    (sectionsContent : List (List Char × List Char)) (imagesData : List Image)
    (usedRefs : List Ref) : List Image :=
  imagesData.filter (fun img =>
    !((flaggedImages renderOk fileExists outline sectionsContent imagesData
        usedRefs).contains img))

/-- The appendix of leftover images. -/
def appendixBlocks (renderOk fileExists : List Char → Bool) (outline : Outline)
    (sectionsContent : List (List Char × List Char)) (imagesData : List Image)
    (usedRefs : List Ref) : List Block :=
  let rem := appendixImages renderOk fileExists outline sectionsContent imagesData
    usedRefs
  if rem = [] then []
  else Block.heading 1 ("附录：图片汇总".data) ::
    rem.flatMap (fun img => insertImage fileExists img)

/-- The numbered reference appendix. -/
def refsBlocks (usedRefs : List Ref) : List Block :=
  if usedRefs = [] then []
  else Block.heading 1 ("参考文献 (References)".data) ::
    (((List.range usedRefs.length).zip usedRefs).map
      (fun p => Block.refItem (p.1 + 1) p.2.text))

/-- `generate_docx`: title, abstract, per-section headings and bodies, the
image appendix, and the numbered references. -/
def generateDocx (renderOk fileExists : List Char → Bool) (outline : Outline)
    (sectionsContent : List (List Char × List Char)) (imagesData : List Image)
    (usedRefs : List Ref) : List Block :=
  Block.heading 0 outline.title ::
    ((if outline.abstractPoints = [] then []
      else [Block.heading 1 ("摘要".data),
            Block.para [Run.text
              ((List.intercalate ("；".data) outline.abstractPoints) ++ "。".data)]]) ++
     (docSections renderOk fileExists outline sectionsContent imagesData
        usedRefs).flatMap (fun s => Block.heading 1 s.1 :: s.2.1) ++
     appendixBlocks renderOk fileExists outline sectionsContent imagesData usedRefs ++
     refsBlocks usedRefs)

/-! ## Placeholder / assembly lemmas (C1, C3, C10) -/

/-- Does `content` carry an image-insertion token whose stripped identifier
is `iid`? -/
def hasImgTokenFor (iid content : List Char) : Bool :=
  (findTagIds imgTagS content).any (fun b => stripWS b = iid)

theorem picture_not_in_textChunk (renderOk : List Char → Bool)
    (usedRefs : Option (List Ref)) (t : List Char) (img : Image) :
    Block.picture img ∉ processTextChunk renderOk usedRefs t := by
  intro hmem
  simp only [processTextChunk] at hmem
  split at hmem
  · simp at hmem
  · obtain ⟨para0, _, hmem2⟩ := List.mem_flatMap.mp hmem
    split_ifs at hmem2 <;> simp [addParagraphWithMath] at hmem2

theorem picture_mem_insertImage {fe : List Char → Bool} {img img2 : Image} :
    Block.picture img2 ∈ insertImage fe img ↔ img2 = img ∧ fe img.path = true := by
  unfold insertImage
  split
  · rename_i hfe
    simp [hfe]
  · rename_i hfe
    simp only [List.not_mem_nil, false_iff]
    intro hc
    exact hfe hc.2

theorem imgDictGetNE_id {images : List Image} {key : List Char} {img : Image}
    (h : imgDictGetNE images key = some img) : img.id = key := by
  have := List.find?_some h
  simpa using this

theorem imgDictGetNE_mem {images : List Image} {key : List Char} {img : Image}
    (h : imgDictGetNE images key = some img) : img ∈ images := by
  have := List.mem_of_find?_eq_some h
  have h2 := List.mem_reverse.mp this
  exact List.mem_of_mem_filter h2

theorem imgDictGetNE_self {images : List Image}
    (hnd : (images.map Image.id).Nodup) {img : Image} (hmem : img ∈ images)
    (hne : ¬(img.id = [])) : imgDictGetNE images img.id = some img := by
  have hmem2 : img ∈ (images.filter (fun i => !(i.id = []))).reverse := by
    rw [List.mem_reverse]
    exact List.mem_filter.mpr ⟨hmem, by simpa using hne⟩
  have hsome : (((images.filter (fun i => !(i.id = []))).reverse).find?
      (fun i => i.id = img.id)).isSome := by
    rw [List.find?_isSome]
    exact ⟨img, hmem2, by simp⟩
  obtain ⟨img2, h2⟩ := Option.isSome_iff_exists.mp hsome
  have hid : img2.id = img.id := by
    have := List.find?_some h2
    simpa using this
  have hmem3 : img2 ∈ images := by
    have := List.mem_of_find?_eq_some h2
    exact List.mem_of_mem_filter (List.mem_reverse.mp this)
  have : img2 = img := List.inj_on_of_nodup_map hnd hmem3 hmem hid
  subst this
  exact h2

theorem picture_in_processContent {renderOk fe : List Char → Bool}
    {imgs : List Image} {used : List Ref} {c : List Char} {img : Image} :
    Block.picture img ∈ (processContent renderOk fe imgs used c).1 ↔
      (∃ p ∈ (tagScan imgTagS c).2,
        imgDictGetNE imgs (stripWS p.1) = some img ∧ fe img.path = true) := by
  simp only [processContent]
  simp only [List.mem_append, List.mem_flatMap, List.mem_map]
  constructor
  · intro hmem
    rcases hmem with hhead | ⟨q, ⟨p, hp, hq⟩, hmemq⟩
    · exact absurd hhead (picture_not_in_textChunk _ _ _ _)
    · subst hq
      cases hd : imgDictGetNE imgs (stripWS p.1) with
      | some img2 =>
        rw [hd] at hmemq
        simp only [List.mem_append] at hmemq
        rcases hmemq with hins | htxt
        · have := picture_mem_insertImage.mp hins
          exact ⟨p, hp, by rw [hd, this.1], this.1 ▸ this.2⟩
        · exact absurd htxt (picture_not_in_textChunk _ _ _ _)
      | none =>
        rw [hd] at hmemq
        exact absurd hmemq (picture_not_in_textChunk _ _ _ _)
  · rintro ⟨p, hp, hdict, hfe⟩
    right
    refine ⟨_, ⟨p, hp, rfl⟩, ?_⟩
    simp only [hdict, List.mem_append]
    left
    exact picture_mem_insertImage.mpr ⟨rfl, hfe⟩

theorem mem_processContent_inserted {renderOk fe : List Char → Bool}
    {imgs : List Image} {used : List Ref} {c : List Char} {iid : List Char} :
    iid ∈ (processContent renderOk fe imgs used c).2 ↔
      ∃ p ∈ (tagScan imgTagS c).2,
        stripWS p.1 = iid ∧ (imgDictGetNE imgs iid).isSome := by
  simp only [processContent]
  simp only [List.mem_flatMap, List.mem_map]
  constructor
  · rintro ⟨q, ⟨p, hp, hq⟩, hmemq⟩
    subst hq
    cases hd : imgDictGetNE imgs (stripWS p.1) with
    | some img2 =>
      rw [hd] at hmemq
      simp only [List.mem_singleton] at hmemq
      subst hmemq
      exact ⟨p, hp, rfl, by rw [hd]; rfl⟩
    | none =>
      rw [hd] at hmemq
      simp at hmemq
  · rintro ⟨p, hp, hstrip, hsome⟩
    refine ⟨_, ⟨p, hp, rfl⟩, ?_⟩
    subst hstrip
    cases hd : imgDictGetNE imgs (stripWS p.1) with
    | some img2 => simp
    | none => rw [hd] at hsome; simp at hsome

theorem hasImgTokenFor_iff {iid c : List Char} :
    hasImgTokenFor iid c = true ↔
      ∃ p ∈ (tagScan imgTagS c).2, stripWS p.1 = iid := by
  unfold hasImgTokenFor findTagIds
  rw [List.any_eq_true]
  constructor
  · rintro ⟨b, hb, hbs⟩
    obtain ⟨p, hp, hpb⟩ := List.mem_map.mp hb
    exact ⟨p, hp, by rw [hpb]; simpa using hbs⟩
  · rintro ⟨p, hp, hps⟩
    exact ⟨p.1, List.mem_map.mpr ⟨p, hp, rfl⟩, by simpa using hps⟩

theorem picture_in_resolveSection {renderOk fe : List Char → Bool}
    {imgs : List Image} {used : List Ref} {heading c : List Char} {img : Image}
    (h : Block.picture img ∈ (resolveSection renderOk fe imgs used heading c).1) :
    hasImgTokenFor img.id c = true := by
  unfold resolveSection at h
  split at h
  · simp at h
  · obtain ⟨p, hp, hdict, _⟩ := picture_in_processContent.mp h
    exact hasImgTokenFor_iff.mpr ⟨p, hp, (imgDictGetNE_id hdict).symm⟩

/-! ## C1: at-most-once image insertion (amended) -/

/-- C1 (amended).  Assembly inserts the image block of `img` into exactly
the sections whose looked-up generated text carries an insertion token for
`img.id`; hence when that token occurs in at most one section's text, the
block appears in the resolved output of at most one section.  (The original
claim — at most one section even when several section texts carry the
token — is false: assembly re-checks only the full extracted image dict,
not the consumption pool; see the counterexample.) -/
theorem image_block_at_most_one_section (renderOk fileExists : List Char → Bool)
    (outline : Outline) (sectionsContent : List (List Char × List Char))
    (imagesData : List Image) (usedRefs : List Ref) (img : Image)
    (h : ((outline.sections.map
        (fun sec => contentGet sectionsContent sec.heading)).countP
          (fun c => hasImgTokenFor img.id c)) ≤ 1) :
    ((docSections renderOk fileExists outline sectionsContent imagesData
        usedRefs).countP
      (fun s => decide (Block.picture img ∈ s.2.1))) ≤ 1 := by
  unfold docSections
  rw [List.countP_map]
  rw [List.countP_map] at h
  refine Nat.le_trans (List.countP_mono_left ?_) h
  intro sec _ hp
  simp only [Function.comp_apply, decide_eq_true_eq] at hp ⊢
  exact picture_in_resolveSection hp

/-- The image of the C1 scenario. -/
def c1Img : Image :=
  { id := "img_000".data, path := "fig.png".data, captionContext := "cap".data }

/-- Outline with two sections for the C1 scenario. -/
def c1Outline : Outline :=
  { title := "T".data, abstractPoints := [],
    sections := [{ heading := "1".data, points := [] },
                 { heading := "2".data, points := [] }] }

/-- Generated texts in which BOTH sections carry the `img_000` insertion
token (as an LLM may do even though the pool offered `img_000` to at most
one of them). -/
def c1Content : List (List Char × List Char) :=
  [("1".data, "a\n\n[INSERT_IMG_img_000]\n\nb".data),
   ("2".data, "c\n\n[INSERT_IMG_img_000]".data)]

/-- The always-true predicate (used as `fileExists` / `renderOk` model). -/
def cTrue : List Char → Bool := fun _ => true

/-- C1 counterexample: with two section texts carrying the same token, the
rendered image block for `img_000` appears in the resolved output of TWO
sections, refuting at-most-once consumption as claimed. -/
theorem image_at_most_once_counterexample :
    ((docSections cTrue cTrue c1Outline c1Content [c1Img] []).countP
      (fun s => decide (Block.picture c1Img ∈ s.2.1))) = 2 := by decide

/-- Texts in which only section 1 carries the token. -/
def c1bContent : List (List Char × List Char) :=
  [("1".data, "a\n\n[INSERT_IMG_img_000]\n\nb".data),
   ("2".data, "c only text".data)]

theorem image_block_at_most_one_section_witness :
    ((docSections cTrue cTrue c1Outline c1bContent [c1Img] []).countP
      (fun s => decide (Block.picture c1Img ∈ s.2.1))) ≤ 1 :=
  image_block_at_most_one_section cTrue cTrue c1Outline c1bContent [c1Img] [] c1Img
    (by decide)

/-! ## C10: image appendix and full coverage -/

theorem hasImgTokenFor_nil (iid : List Char) : hasImgTokenFor iid [] = false := rfl

theorem mem_resolveSection_inserted {renderOk fe : List Char → Bool}
    {imgs : List Image} {used : List Ref} {heading c iid : List Char} :
    iid ∈ (resolveSection renderOk fe imgs used heading c).2 ↔
      hasImgTokenFor iid c = true ∧ (imgDictGetNE imgs iid).isSome := by
  unfold resolveSection
  split
  · rename_i hc
    subst hc
    rw [hasImgTokenFor_nil]
    simp
  · rw [mem_processContent_inserted]
    constructor
    · rintro ⟨p, hp, hstrip, hsome⟩
      exact ⟨hasImgTokenFor_iff.mpr ⟨p, hp, hstrip⟩, hsome⟩
    · rintro ⟨htok, hsome⟩
      obtain ⟨p, hp, hstrip⟩ := hasImgTokenFor_iff.mp htok
      exact ⟨p, hp, hstrip, hsome⟩

theorem mem_docInsertedIds {renderOk fe : List Char → Bool} {outline : Outline}
    {sectionsContent : List (List Char × List Char)} {imagesData : List Image}
    {usedRefs : List Ref} {iid : List Char} :
    iid ∈ docInsertedIds renderOk fe outline sectionsContent imagesData usedRefs ↔
      (imgDictGetNE imagesData iid).isSome ∧
      ∃ sec ∈ outline.sections,
        hasImgTokenFor iid (contentGet sectionsContent sec.heading) = true := by
  unfold docInsertedIds docSections
  rw [List.mem_flatMap]
  constructor
  · rintro ⟨s, hs, hmem⟩
    obtain ⟨sec, hsec, hseq⟩ := List.mem_map.mp hs
    subst hseq
    obtain ⟨htok, hsome⟩ := mem_resolveSection_inserted.mp hmem
    exact ⟨hsome, sec, hsec, htok⟩
  · rintro ⟨hsome, sec, hsec, htok⟩
    exact ⟨_, List.mem_map.mpr ⟨sec, hsec, rfl⟩,
      mem_resolveSection_inserted.mpr ⟨htok, hsome⟩⟩

theorem imgDictGetNE_nil (images : List Image) : imgDictGetNE images [] = none := by
  unfold imgDictGetNE
  rw [List.find?_eq_none]
  intro img hmem
  have : img ∈ images.filter (fun i => !(i.id = [])) := List.mem_reverse.mp hmem
  have hT := (List.mem_filter.mp this).2
  simp only [Bool.not_eq_true', decide_eq_false_iff_not] at hT
  simpa using hT

theorem mem_flaggedImages {renderOk fe : List Char → Bool} {outline : Outline}
    {sectionsContent : List (List Char × List Char)} {imagesData : List Image}
    {usedRefs : List Ref} (hnd : (imagesData.map Image.id).Nodup) {img : Image}
    (hmem : img ∈ imagesData) :
    img ∈ flaggedImages renderOk fe outline sectionsContent imagesData usedRefs ↔
      img.id ∈ docInsertedIds renderOk fe outline sectionsContent imagesData
        usedRefs := by
  unfold flaggedImages
  rw [List.mem_filterMap]
  constructor
  · rintro ⟨iid, hins, hdict⟩
    rw [imgDictGetNE_id hdict]
    exact hins
  · intro hins
    have hsome := (mem_docInsertedIds.mp hins).1
    obtain ⟨img2, hd2⟩ := Option.isSome_iff_exists.mp hsome
    have hid2 : img2.id = img.id := imgDictGetNE_id hd2
    have hmem2 : img2 ∈ imagesData := imgDictGetNE_mem hd2
    have : img2 = img := List.inj_on_of_nodup_map hnd hmem2 hmem hid2
    subst this
    exact ⟨img2.id, hins, hd2⟩

/-- The claim-level "consumed at a placeholder" predicate: the image has a
truthy id and some section text carries its insertion token. -/
def consumedAtPlaceholder (outline : Outline)
    (sectionsContent : List (List Char × List Char)) (img : Image) : Bool :=
  !(img.id = []) &&
    outline.sections.any
      (fun sec => hasImgTokenFor img.id (contentGet sectionsContent sec.heading))

theorem flagged_iff_consumed {renderOk fe : List Char → Bool} {outline : Outline}
    {sectionsContent : List (List Char × List Char)} {imagesData : List Image}
    {usedRefs : List Ref} (hnd : (imagesData.map Image.id).Nodup) {img : Image}
    (hmem : img ∈ imagesData) :
    img ∈ flaggedImages renderOk fe outline sectionsContent imagesData usedRefs ↔
      consumedAtPlaceholder outline sectionsContent img = true := by
  rw [mem_flaggedImages hnd hmem, mem_docInsertedIds]
  unfold consumedAtPlaceholder
  rw [Bool.and_eq_true, List.any_eq_true]
  constructor
  · rintro ⟨hsome, sec, hsec, htok⟩
    refine ⟨?_, sec, hsec, htok⟩
    simp only [Bool.not_eq_true', decide_eq_false_iff_not]
    intro hnil
    rw [hnil, imgDictGetNE_nil] at hsome
    simp at hsome
  · rintro ⟨hne, sec, hsec, htok⟩
    have hne2 : ¬(img.id = []) := by simpa using hne
    exact ⟨by rw [imgDictGetNE_self hnd hmem hne2]; rfl, sec, hsec, htok⟩

/-- C10.  The trailing appendix consists of exactly the extracted images
never consumed at an insertion placeholder (each once, in original
extraction order), and every extracted image whose file exists appears
somewhere in the final document: in a section at its placeholder, or in the
appendix. -/
theorem appendix_and_coverage (renderOk fileExists : List Char → Bool)
    (outline : Outline) (sectionsContent : List (List Char × List Char))
    (imagesData : List Image) (usedRefs : List Ref)
    (hnd : (imagesData.map Image.id).Nodup) :
    appendixImages renderOk fileExists outline sectionsContent imagesData usedRefs =
      imagesData.filter
        (fun img => !(consumedAtPlaceholder outline sectionsContent img)) ∧
    ∀ img ∈ imagesData, fileExists img.path = true →
      (∃ s ∈ docSections renderOk fileExists outline sectionsContent imagesData
          usedRefs, Block.picture img ∈ s.2.1) ∨
        Block.picture img ∈
          appendixBlocks renderOk fileExists outline sectionsContent imagesData
            usedRefs := by
  have happ : appendixImages renderOk fileExists outline sectionsContent imagesData
      usedRefs =
      imagesData.filter
        (fun img => !(consumedAtPlaceholder outline sectionsContent img)) := by
    unfold appendixImages
    apply List.filter_congr
    intro img hmem
    have := @flagged_iff_consumed renderOk fileExists outline sectionsContent
      imagesData usedRefs hnd img hmem
    by_cases hc : consumedAtPlaceholder outline sectionsContent img = true
    · have hf : img ∈ flaggedImages renderOk fileExists outline sectionsContent
          imagesData usedRefs := this.mpr hc
      simp [hc, hf]
    · have hf : img ∉ flaggedImages renderOk fileExists outline sectionsContent
          imagesData usedRefs := fun hx => hc (this.mp hx)
      simp only [Bool.not_eq_true] at hc
      simp [hc, hf]
  refine ⟨happ, ?_⟩
  intro img hmem hfe
  by_cases hcons : consumedAtPlaceholder outline sectionsContent img = true
  · left
    rw [consumedAtPlaceholder, Bool.and_eq_true] at hcons
    obtain ⟨hne, hany⟩ := hcons
    obtain ⟨sec, hsec, htok⟩ := List.any_eq_true.mp hany
    have hne2 : ¬(img.id = []) := by simpa using hne
    obtain ⟨p, hp, hstrip⟩ := hasImgTokenFor_iff.mp htok
    have hcne : contentGet sectionsContent sec.heading ≠ [] := by
      intro hnil
      rw [hnil] at hp
      have hz : (tagScan imgTagS ([] : List Char)).2 = [] := rfl
      rw [hz] at hp
      simp at hp
    refine ⟨(sec.heading,
      resolveSection renderOk fileExists imagesData usedRefs sec.heading
        (contentGet sectionsContent sec.heading)),
      List.mem_map.mpr ⟨sec, hsec, rfl⟩, ?_⟩
    show Block.picture img ∈ (resolveSection _ _ _ _ _ _).1
    unfold resolveSection
    rw [if_neg hcne]
    refine picture_in_processContent.mpr ⟨p, hp, ?_, hfe⟩
    rw [hstrip]
    exact imgDictGetNE_self hnd hmem hne2
  · right
    have hin : img ∈ appendixImages renderOk fileExists outline sectionsContent
        imagesData usedRefs := by
      rw [happ]
      refine List.mem_filter.mpr ⟨hmem, ?_⟩
      simp only [Bool.not_eq_true] at hcons ⊢
      simp [hcons]
    unfold appendixBlocks
    rw [if_neg (List.ne_nil_of_mem hin)]
    rw [List.mem_cons]
    right
    rw [List.mem_flatMap]
    exact ⟨img, hin, picture_mem_insertImage.mpr ⟨rfl, hfe⟩⟩

/-- First image of the C10 witness (consumed by section 1). -/
def c10Img0 : Image :=
  { id := "img_000".data, path := "a.png".data, captionContext := "A".data }

/-- Second image of the C10 witness (left to the appendix). -/
def c10Img1 : Image :=
  { id := "img_001".data, path := "b.png".data, captionContext := "B".data }

/-- Section texts for the C10 witness. -/
def c10Content : List (List Char × List Char) :=
  [("1".data, "x\n\n[INSERT_IMG_img_000]\n\ny".data),
   ("2".data, "plain".data)]

theorem appendix_and_coverage_witness :
    appendixImages cTrue cTrue c1Outline c10Content [c10Img0, c10Img1] [] =
      [c10Img1] ∧
    ((∃ s ∈ docSections cTrue cTrue c1Outline c10Content [c10Img0, c10Img1] [],
        Block.picture c10Img0 ∈ s.2.1) ∨
      Block.picture c10Img0 ∈
        appendixBlocks cTrue cTrue c1Outline c10Content [c10Img0, c10Img1] []) := by
  have h := appendix_and_coverage cTrue cTrue c1Outline c10Content
    [c10Img0, c10Img1] [] (by decide)
  constructor
  · rw [h.1]
    decide
  · exact h.2 c10Img0 (by decide) (by decide)

/-! ## C3: degradation of unresolvable placeholders -/

/-- Substring test (claim-side visibility of a literal token). -/
def hasSub (needle hay : List Char) : Bool :=
  hay.tails.any (fun t => needle.isPrefixOf t)

/-- The visible text fragments of a block. -/
def blockTexts : Block → List (List Char)
  | Block.para runs =>
    runs.filterMap (fun r =>
      match r with
      | Run.text s => some s
      | _ => none)
  | Block.heading _ s => [s]
  | Block.figCaption s => [s]
  | Block.refItem _ s => [s]
  | Block.picture _ => []

/-- Is the literal token visible anywhere in the resolved blocks? -/
def tokenVisible (tok : List Char) (blocks : List Block) : Bool :=
  blocks.any (fun b => (blockTexts b).any (fun s => hasSub tok s))

/-- A section text whose image token carries an identifier that exists in
no image record. -/
def c3Content : List Char := "A [INSERT_IMG_ghost] B".data

/-- The ghost token literal. -/
def c3Tok : List Char := "[INSERT_IMG_ghost]".data

/-- C3 counterexample: the unknown-image token is present in the section
text, yet resolution DROPS it — the resolved output contains no trace of
the token, instead of leaving it as inert visible literal text as the claim
requires.  (Unknown reference tokens, by contrast, are kept; see the
amended theorem.) -/
theorem placeholder_degradation_counterexample :
    hasSub c3Tok c3Content = true ∧
    (processContent cTrue cTrue [c1Img] [] c3Content).1 =
      [Block.para [Run.text "A".data], Block.para [Run.text "B".data]] ∧
    tokenVisible c3Tok ((processContent cTrue cTrue [c1Img] [] c3Content).1) =
      false := by
  refine ⟨by decide, by decide, by decide⟩

theorem handlePart_unknown_ref (renderOk : List Char → Bool) (used : List Ref)
    (idb : List Char) (href : used.findIdx? (fun r => r.id = pySlice 5 1 (refTagS ++ idb ++ rbS)) = none) :
    handlePart renderOk (some used) (refTagS ++ idb ++ rbS) =
      [Run.text (refTagS ++ idb ++ rbS)] := by
  have hshape : refTagS ++ idb ++ rbS = '[' :: ("REF_".data ++ idb ++ rbS) := rfl
  have hne : ¬(refTagS ++ idb ++ rbS = []) := by
    rw [hshape]; simp
  have hdd : ddS.isPrefixOf (refTagS ++ idb ++ rbS) = false := by
    rw [hshape]
    simp [ddS, List.isPrefixOf]
  have hd : dS.isPrefixOf (refTagS ++ idb ++ rbS) = false := by
    rw [hshape]
    simp [dS, List.isPrefixOf]
  have href1 : refTagS.isPrefixOf (refTagS ++ idb ++ rbS) = true := by
    rw [List.append_assoc]
    exact List.isPrefixOf_iff_prefix.mpr (List.prefix_append _ _)
  have hrb : rbS.isSuffixOf (refTagS ++ idb ++ rbS) = true := by
    rw [show refTagS ++ idb ++ rbS = (refTagS ++ idb) ++ rbS from by simp]
    exact List.isSuffixOf_iff_suffix.mpr (List.suffix_append _ _)
  have href2 : List.findIdx?
      (fun r => decide (r.id = pySlice 5 1 (refTagS ++ (idb ++ rbS)))) used = none := by
    rw [← List.append_assoc]
    exact href
  unfold handlePart
  rw [if_neg hne, hdd, hd, href1, hrb]
  simp [href2]

/-- C3 (amended).  Resolution never fails: text parts resolve independently
of placeholder validity; an image token whose identifier is unknown
contributes NO output blocks (it is dropped, with a warning) and is never
recorded as consumed; a reference token whose identifier is unknown is kept
verbatim as an inert literal text run. -/
theorem placeholder_degradation_amended (renderOk fe : List Char → Bool)
    (imgs : List Image) (used : List Ref) (content : List Char)
    (idb : List Char)
    (href : used.findIdx? (fun r => r.id = pySlice 5 1 (refTagS ++ idb ++ rbS)) = none) :
    (processContent renderOk fe imgs used content).1 =
      processTextChunk renderOk (some used) (tagScan imgTagS content).1 ++
        ((tagScan imgTagS content).2).flatMap (fun p =>
          (match imgDictGetNE imgs (stripWS p.1) with
           | some img => insertImage fe img
           | none => []) ++ processTextChunk renderOk (some used) p.2) ∧
    (∀ iid ∈ (processContent renderOk fe imgs used content).2,
      (imgDictGetNE imgs iid).isSome) ∧
    handlePart renderOk (some used) (refTagS ++ idb ++ rbS) =
      [Run.text (refTagS ++ idb ++ rbS)] := by
  refine ⟨?_, ?_, handlePart_unknown_ref renderOk used idb href⟩
  · simp only [processContent]
    congr 1
    generalize (tagScan imgTagS content).2 = ps
    induction ps with
    | nil => rfl
    | cons p ps ih =>
      simp only [List.map_cons, List.flatMap_cons, ih]
      cases hd : imgDictGetNE imgs (stripWS p.1) <;> simp [hd]
  · intro iid hmem
    obtain ⟨p, hp, hstrip, hsome⟩ := mem_processContent_inserted.mp hmem
    exact hsome

theorem placeholder_degradation_amended_witness :
    handlePart cTrue (some [c6Ref]) (refTagS ++ ("zz".data) ++ rbS) =
      [Run.text (refTagS ++ ("zz".data) ++ rbS)] ∧
    (∀ iid ∈ (processContent cTrue cTrue [c1Img] [c6Ref] c3Content).2,
      (imgDictGetNE [c1Img] iid).isSome) := by
  have h := placeholder_degradation_amended cTrue cTrue [c1Img] [c6Ref] c3Content
    ("zz".data) (by decide)
  exact ⟨h.2.2, h.2.1⟩

/-! ## C7: `_build_vector_store` / `_get_chapter_context` fallback -/

/-- `config.MAX_TEXT_CONTEXT_CHARS`. -/
def maxTextContextChars : Nat := 100000

/-- `_build_vector_store`: a text that is empty or shorter than 200
characters never builds an index.  Longer texts delegate to the external
splitter/embedder, modelled by `tryBuild` (`none` also covers the
exception fallback of the `try` block). -/
def buildVectorStore {VS : Type} (tryBuild : List Char → Option VS)
    (text : List Char) : Option VS :=
  if text = [] || text.length < 200 then none else tryBuild text

/-- `_get_chapter_context`: with a store, query it (Boolean records that an
embedding-index query was issued; `retrieve ... = none` models the
exception fallback); without a store, return the deterministic leading
slice of the raw text and never query. -/
def getChapterContext {VS : Type}
    (retrieve : VS → List Char → Option (List (List Char)))
    (heading : List Char) (points : List (List Char)) (fullText : List Char)
    (vs : Option VS) : List Char × Bool :=
  match vs with
  | some store =>
    let query := heading ++ (' ' :: List.intercalate (" ".data) (points.take 6))
    match retrieve store query with
    | some docs => (List.intercalate ("\n\n---\n\n".data) docs, true)
    | none => (fullText.take maxTextContextChars, true)
  | none => (fullText.take maxTextContextChars, false)

/-- C7.  For a source text shorter than the 200-character indexing
threshold, no index is built, and section retrieval returns the
deterministic leading slice of the raw text without ever issuing an
embedding-index query (both functions are total, so no exception can be
raised). -/
theorem retrieval_fallback {VS : Type} (tryBuild : List Char → Option VS)
    (retrieve : VS → List Char → Option (List (List Char)))
    (heading : List Char) (points : List (List Char)) (text : List Char)
    (h : text.length < 200) :
    buildVectorStore tryBuild text = none ∧
    getChapterContext retrieve heading points text
        (buildVectorStore tryBuild text) =
      (text.take maxTextContextChars, false) := by
  have hb : buildVectorStore tryBuild text = none := by
    unfold buildVectorStore
    rw [if_pos]
    simp [h]
  refine ⟨hb, ?_⟩
  rw [hb]
  rfl

theorem retrieval_fallback_witness :
    @buildVectorStore Unit (fun _ => some ()) ("short text".data) = none ∧
    @getChapterContext Unit (fun _ _ => some [])
        ("1. Intro".data) [] ("short text".data)
        (@buildVectorStore Unit (fun _ => some ()) ("short text".data)) =
      (("short text".data).take maxTextContextChars, false) :=
  @retrieval_fallback Unit (fun _ => some ()) (fun _ _ => some [])
    ("1. Intro".data) [] ("short text".data) (by decide)

/-! ## C5: `node_parse_pdf` parse cache -/

/-- An extracted image as stored in a cache entry / returned by the parser
(its `id` may be present or absent). -/
structure RawImage where
  path : List Char
  captionContext : List Char
  idOpt : Option (List Char)
deriving DecidableEq, Repr

/-- The parse service output (`parse_multiple_pdfs`). -/
structure ParseOut where
  text : List Char
  imagesData : List RawImage
  isScanned : Bool
deriving DecidableEq, Repr

/-- One cache file (`ocr_cache_<key>.json`): parse output plus the derived
reference list; `referencesData = none` models an older-schema entry with
the field missing. -/
structure CacheEntry where
  text : List Char
  imagesData : List RawImage
  isScanned : Bool
  referencesData : Option (List Ref)
deriving DecidableEq, Repr

/-- Python `f"{i:03d}"`. -/
def pad3 (n : Nat) : List Char :=
  let ds := Nat.toDigits 10 n
  List.replicate (3 - ds.length) '0' ++ ds

/-- `f"img_{i:03d}"`. -/
def mkImgId (i : Nat) : List Char := "img_".data ++ pad3 i

/-- The `for i, img in enumerate(images): if "id" not in img: img["id"] = ...`
loop (run identically on both the cache-hit and the parse paths). -/
def assignIds (imgs : List RawImage) : List Image :=
  imgs.enum.map (fun p =>
    { id := p.2.idOpt.getD (mkImgId p.1), path := p.2.path,
      captionContext := p.2.captionContext })

/-- The byte sequence hashed for the cache key: for each uploaded file, its
name's UTF-8 bytes followed by its content bytes, in upload order
(`hasher.update(fname.encode); hasher.update(stream)`).  A file is a
(stream bytes, name bytes) pair. -/
def cacheKeyData (files : List (List Nat × List Nat)) : List Nat :=
  files.flatMap (fun f => f.2 ++ f.1)

/-- Cache lookup (`os.path.exists` + `json.load`): the last write wins. -/
def cacheRead (cache : List (List Nat × CacheEntry)) (key : List Nat) :
    Option CacheEntry :=
  (cache.reverse.find? (fun p => p.1 = key)).map (fun p => p.2)

/-- Cache write (`json.dump` to the key's file). -/
def cacheWrite (cache : List (List Nat × CacheEntry)) (key : List Nat)
    (e : CacheEntry) : List (List Nat × CacheEntry) :=
  cache ++ [(key, e)]

/-- The observable output of `node_parse_pdf`. -/
structure NodeOut where
  pdfContent : List Char
  isScanned : Bool
  imagesData : List Image
  referencesData : List Ref
  usedKey : Option (List Nat)
deriving DecidableEq, Repr

/-- `node_parse_pdf`, parametrised over the md5 hash, the parse service and
the reference-extraction service.  Returns the output, the updated cache,
and two flags: was the parse service called, was reference extraction
called.  (The vector-store build that follows on both paths is modelled by
`buildVectorStore` separately and touches neither the cache nor the parse
service.) -/
def nodeParsePdf (hash : List Nat → List Nat)
    (parse : List (List Nat × List Nat) → ParseOut)
    (extractRefs : List Char → List Ref)
    (statePdfContent : List Char)
    (cache : List (List Nat × CacheEntry))
    (files : List (List Nat × List Nat)) :
    NodeOut × List (List Nat × CacheEntry) × Bool × Bool :=
  if files = [] then
    ({ pdfContent := statePdfContent, isScanned := false, imagesData := [],
       referencesData := [], usedKey := none }, cache, false, false)
  else
    let key := hash (cacheKeyData files)
    match cacheRead cache key with
    | some entry =>
      match entry.referencesData with
      | some refs =>
        ({ pdfContent := entry.text, isScanned := entry.isScanned,
           imagesData := assignIds entry.imagesData, referencesData := refs,
           usedKey := some key }, cache, false, false)
      | none =>
        let refs := extractRefs entry.text
        ({ pdfContent := entry.text, isScanned := entry.isScanned,
           imagesData := assignIds entry.imagesData, referencesData := refs,
           usedKey := some key },
         cacheWrite cache key { entry with referencesData := some refs },
         false, true)
    | none =>
      let result := parse files
      let refs := extractRefs result.text
      ({ pdfContent := result.text, isScanned := result.isScanned,
         imagesData := assignIds result.imagesData, referencesData := refs,
         usedKey := some key },
       cacheWrite cache key
         { text := result.text, imagesData := result.imagesData,
           isScanned := result.isScanned, referencesData := some refs },
       true, false)

/-- C5.  With byte-identical input files, both runs compute the same cache
key; the second run, starting from the cache the first run wrote, calls
neither the parse service nor reference extraction, leaves the cache
untouched, and returns exactly the first run's parsed text, images and
references (now served from the cache entry). -/
theorem deterministic_cache_second_run (hash : List Nat → List Nat)
    (parse : List (List Nat × List Nat) → ParseOut)
    (extractRefs : List Char → List Ref) (statePdfContent : List Char)
    (files : List (List Nat × List Nat)) (hne : ¬(files = [])) :
    (nodeParsePdf hash parse extractRefs statePdfContent [] files).1.usedKey =
      some (hash (cacheKeyData files)) ∧
    (nodeParsePdf hash parse extractRefs statePdfContent
        (nodeParsePdf hash parse extractRefs statePdfContent [] files).2.1
        files).1.usedKey =
      (nodeParsePdf hash parse extractRefs statePdfContent [] files).1.usedKey ∧
    (nodeParsePdf hash parse extractRefs statePdfContent
        (nodeParsePdf hash parse extractRefs statePdfContent [] files).2.1
        files).2.2.1 = false ∧
    (nodeParsePdf hash parse extractRefs statePdfContent
        (nodeParsePdf hash parse extractRefs statePdfContent [] files).2.1
        files).2.2.2 = false ∧
    (nodeParsePdf hash parse extractRefs statePdfContent
        (nodeParsePdf hash parse extractRefs statePdfContent [] files).2.1
        files).1 =
      (nodeParsePdf hash parse extractRefs statePdfContent [] files).1 ∧
    (nodeParsePdf hash parse extractRefs statePdfContent
        (nodeParsePdf hash parse extractRefs statePdfContent [] files).2.1
        files).2.1 =
      (nodeParsePdf hash parse extractRefs statePdfContent [] files).2.1 := by
  have hread1 : cacheRead [] (hash (cacheKeyData files)) = none := rfl
  have hread2 : cacheRead
      (cacheWrite [] (hash (cacheKeyData files))
        { text := (parse files).text, imagesData := (parse files).imagesData,
          isScanned := (parse files).isScanned,
          referencesData := some (extractRefs (parse files).text) })
      (hash (cacheKeyData files)) =
      some { text := (parse files).text, imagesData := (parse files).imagesData,
             isScanned := (parse files).isScanned,
             referencesData := some (extractRefs (parse files).text) } := by
    simp [cacheRead, cacheWrite]
  simp [nodeParsePdf, if_neg hne, hread1, hread2]

theorem deterministic_cache_second_run_witness :
    (nodeParsePdf (fun b => b)
        (fun _ => { text := "t".data, imagesData := [], isScanned := false })
        (fun _ => []) [] []
        [(([1, 2] : List Nat), ([3] : List Nat))]).2.2.1 = true ∧
    (nodeParsePdf (fun b => b)
        (fun _ => { text := "t".data, imagesData := [], isScanned := false })
        (fun _ => []) []
        (nodeParsePdf (fun b => b)
          (fun _ => { text := "t".data, imagesData := [], isScanned := false })
          (fun _ => []) [] [] [(([1, 2] : List Nat), ([3] : List Nat))]).2.1
        [(([1, 2] : List Nat), ([3] : List Nat))]).2.2.1 = false ∧
    (nodeParsePdf (fun b => b)
        (fun _ => { text := "t".data, imagesData := [], isScanned := false })
        (fun _ => []) []
        (nodeParsePdf (fun b => b)
          (fun _ => { text := "t".data, imagesData := [], isScanned := false })
          (fun _ => []) [] [] [(([1, 2] : List Nat), ([3] : List Nat))]).2.1
        [(([1, 2] : List Nat), ([3] : List Nat))]).1.pdfContent = "t".data := by
  have h := deterministic_cache_second_run (fun b => b)
    (fun _ => { text := "t".data, imagesData := [], isScanned := false })
    (fun _ => []) [] [(([1, 2] : List Nat), ([3] : List Nat))] (by decide)
  refine ⟨by decide, h.2.2.1, ?_⟩
  rw [h.2.2.2.2.1]
  decide

/-! ## C8: `pdf_parser._enrich_image_contexts` -/

/-- An image record at enrichment time: its short `caption_context` and its
(initially absent) `rich_context`. -/
structure PImage where
  caption : List Char
  rich : Option (List Char)
deriving DecidableEq, Repr

/-- The ideographic class `[一-鿿]`. -/
def isCJK (c : Char) : Bool := 0x4e00 ≤ c.toNat && c.toNat ≤ 0x9fff

/-- The alphabetic class `[a-zA-Z]`. -/
def isAsciiAlpha (c : Char) : Bool :=
  ('a' ≤ c && c ≤ 'z') || ('A' ≤ c && c ≤ 'Z')

/-- `re.findall(r'[一-鿿]{2,}|[a-zA-Z]{3,}', caption)` with each
token lowercased: maximal ideographic runs of length ≥ 2 and maximal
alphabetic runs of length ≥ 3 (shorter runs yield nothing).  The fuel only
forces termination; every step consumes at least one character, so
`s.length` is always enough. -/
def keywordScanF : Nat → List Char → List (List Char)
  | 0, _ => []
  | _ + 1, [] => []
  | fuel + 1, c :: cs =>
    if isCJK c then
      (if 2 ≤ (c :: cs.takeWhile isCJK).length
       then [lowerStr (c :: cs.takeWhile isCJK)] else []) ++
        keywordScanF fuel (cs.dropWhile isCJK)
    else if isAsciiAlpha c then
      (if 3 ≤ (c :: cs.takeWhile isAsciiAlpha).length
       then [lowerStr (c :: cs.takeWhile isAsciiAlpha)] else []) ++
        keywordScanF fuel (cs.dropWhile isAsciiAlpha)
    else keywordScanF fuel cs

/-- The keyword scan with just enough fuel. -/
def keywordScan (s : List Char) : List (List Char) := keywordScanF s.length s

/-- `keywords = set(...)`: the distinct keyword tokens (only the underlying
set matters for scoring). -/
def captionKeywords (caption : List Char) : List (List Char) :=
  (keywordScan caption).dedup

/-- `sum(1 for kw in keywords if kw in para_lower)`. -/
def paraScore (kws : List (List Char)) (para : List Char) : Nat :=
  kws.countP (fun kw => hasSub kw (lowerStr para))

/-- Separator step for `re.split(r'\n{2,}', text)`: a maximal run of at
least two newlines. -/
def nlStep : List Char → Option (Unit × List Char)
  | [] => none
  | [_] => none
  | c :: c2 :: rest =>
    if c = '\n' && c2 = '\n' then some ((), rest.dropWhile (fun x => x = '\n'))
    else none

theorem nlStep_shrinking : Shrinking nlStep := by
  intro s a r h
  cases s with
  | nil => exact absurd h (by simp [nlStep])
  | cons c cs =>
    cases cs with
    | nil => exact absurd h (by simp [nlStep])
    | cons c2 rest =>
      simp only [nlStep] at h
      split at h
      · simp only [Option.some.injEq, Prod.mk.injEq] at h
        rw [← h.2]
        have := (List.dropWhile_suffix (l := rest) (fun x => x = '\n')).sublist.length_le
        simp only [List.length_cons]
        omega
      · exact absurd h (by simp)

/-- `re.split(r'\n{2,}', text)`. -/
def splitNL2 (s : List Char) : List (List Char) :=
  let pr := scanAll nlStep s
  pr.1 :: pr.2.map (fun p => p.2)

/-- The paragraph candidates: stripped blocks longer than 20 characters. -/
def paragraphsOf (t : List Char) : List (List Char) :=
  ((splitNL2 t).map stripWS).filter (fun p => !(p = []) && 20 < p.length)

/-- The `best_score` variable (`0` while `best_para_idx == -1`). -/
def accScore : Option (Nat × Nat) → Nat
  | none => 0
  | some pr => pr.2

/-- The running-best loop (`best_para_idx = -1; best_score = 0;
strict improvement only`), with `none` for `best_para_idx == -1`. -/
def bestParaAux (kws : List (List Char)) :
    List (List Char) → Nat → Option (Nat × Nat) → Option (Nat × Nat)
  | [], _, best => best
  | p :: ps, i, best =>
    bestParaAux kws ps (i + 1)
      (if accScore best < paraScore kws p then some (i, paraScore kws p) else best)

/-- The best-scoring paragraph (first index attaining the maximum). -/
def bestPara (kws ps : List (List Char)) : Option (Nat × Nat) :=
  bestParaAux kws ps 0 none

/-- The anchor neighbourhood: `max(0, i-1)` to `min(len, i+2)`, joined with
newlines, truncated to 800 characters. -/
def neighborhood (ps : List (List Char)) (bi : Nat) : List Char :=
  let lo := bi - 1
  let hi := min ps.length (bi + 2)
  let rich := List.intercalate ('\n' :: []) ((ps.drop lo).take (hi - lo))
  if 800 < rich.length then rich.take 800 else rich

/-- Enrichment of one image record: skipped (record unchanged) when the
caption is shorter than 5 characters or yields no keywords; otherwise the
anchor neighbourhood when the best score reaches 2, else the caption. -/
def enrichOne (ps : List (List Char)) (img : PImage) : PImage :=
  if img.caption = [] || img.caption.length < 5 then img
  else
    if captionKeywords img.caption = [] then img
    else
      match bestPara (captionKeywords img.caption) ps with
      | some (bi, bs) =>
        if 2 ≤ bs then { img with rich := some (neighborhood ps bi) }
        else { img with rich := some img.caption }
      | none => { img with rich := some img.caption }

/-- `_enrich_image_contexts`: a no-op without images, text or paragraph
candidates; otherwise per-image enrichment. -/
def enrichImageContexts (fullText : List Char) (imgs : List PImage) :
    List PImage :=
  if imgs = [] || fullText = [] then imgs
  else
    if paragraphsOf fullText = [] then imgs
    else imgs.map (enrichOne (paragraphsOf fullText))

/-! Spec-side rendering of the claim's algorithm. -/

/-- The claim's maximum paragraph score. -/
def specMaxScore (kws ps : List (List Char)) : Nat :=
  (ps.map (paraScore kws)).foldr max 0

/-- The claim's anchor: the first paragraph attaining the maximum score. -/
def specAnchor (kws ps : List (List Char)) : Option Nat :=
  ps.findIdx? (fun p => paraScore kws p = specMaxScore kws ps)

/-- The claim's enriched context: the anchor neighbourhood when the
maximum score reaches the threshold 2, otherwise the original caption. -/
def specEnrichedContext (kws ps : List (List Char)) (caption : List Char) :
    List Char :=
  if 2 ≤ specMaxScore kws ps then
    match specAnchor kws ps with
    | some bi => neighborhood ps bi
    | none => caption
  else caption

theorem bestParaAux_spec (kws : List (List Char)) :
    ∀ (ps : List (List Char)) (i : Nat) (best : Option (Nat × Nat)),
      (specMaxScore kws ps ≤ accScore best →
        bestParaAux kws ps i best = best) ∧
      (accScore best < specMaxScore kws ps →
        ∃ j, ps.findIdx? (fun p => paraScore kws p = specMaxScore kws ps) = some j ∧
          bestParaAux kws ps i best = some (i + j, specMaxScore kws ps)) := by
  intro ps
  induction ps with
  | nil =>
    intro i best
    constructor
    · intro _
      rfl
    · intro h
      exact absurd h (by simp [specMaxScore])
  | cons p ps ih =>
    intro i best
    have hM : specMaxScore kws (p :: ps) =
        max (paraScore kws p) (specMaxScore kws ps) := rfl
    constructor
    · intro hle
      rw [hM] at hle
      have hsc : paraScore kws p ≤ accScore best :=
        le_trans (le_max_left _ _) hle
      have hM2 : specMaxScore kws ps ≤ accScore best :=
        le_trans (le_max_right _ _) hle
      show bestParaAux kws ps (i + 1)
        (if accScore best < paraScore kws p then some (i, paraScore kws p)
         else best) = best
      rw [if_neg (by omega)]
      exact (ih (i + 1) best).1 hM2
    · intro hlt
      rw [hM] at hlt
      by_cases hcase : specMaxScore kws ps ≤ paraScore kws p
      · have hMeq : max (paraScore kws p) (specMaxScore kws ps) =
            paraScore kws p := max_eq_left hcase
        have hacc : accScore best < paraScore kws p := by omega
        have hfind : (p :: ps).findIdx?
            (fun q => paraScore kws q = specMaxScore kws (p :: ps)) = some 0 := by
          have hpred : paraScore kws p = specMaxScore kws (p :: ps) := by
            rw [hM, hMeq]
          simp [List.findIdx?_cons, hpred]
        refine ⟨0, hfind, ?_⟩
        show bestParaAux kws ps (i + 1)
          (if accScore best < paraScore kws p then some (i, paraScore kws p)
           else best) = _
        rw [if_pos hacc]
        have hstop : specMaxScore kws ps ≤ accScore (some (i, paraScore kws p)) := by
          simpa [accScore] using hcase
        rw [(ih (i + 1) (some (i, paraScore kws p))).1 hstop, hM, hMeq]
        simp
      · have hlt2 : paraScore kws p < specMaxScore kws ps := by omega
        have hMeq : max (paraScore kws p) (specMaxScore kws ps) =
            specMaxScore kws ps := max_eq_right (le_of_lt hlt2)
        have hpredF : ¬(paraScore kws p = specMaxScore kws (p :: ps)) := by
          rw [hM, hMeq]
          omega
        have hcons : (p :: ps).findIdx?
            (fun q => paraScore kws q = specMaxScore kws (p :: ps)) =
            (ps.findIdx? (fun q => paraScore kws q = specMaxScore kws (p :: ps))).map
              (fun i => i + 1) := by
          simp [List.findIdx?_cons, hpredF]
        have hpeq : (ps.findIdx?
            (fun q => paraScore kws q = specMaxScore kws (p :: ps))) =
            (ps.findIdx? (fun q => paraScore kws q = specMaxScore kws ps)) := by
          have : specMaxScore kws (p :: ps) = specMaxScore kws ps := by
            rw [hM, hMeq]
          rw [this]
        by_cases hacc : accScore best < paraScore kws p
        · have hacc2 : accScore (some (i, paraScore kws p)) < specMaxScore kws ps := by
            simpa [accScore] using hlt2
          obtain ⟨j, hfj, hres⟩ := (ih (i + 1) (some (i, paraScore kws p))).2 hacc2
          refine ⟨j + 1, ?_, ?_⟩
          · rw [hcons, hpeq, hfj]
            rfl
          · show bestParaAux kws ps (i + 1)
              (if accScore best < paraScore kws p then some (i, paraScore kws p)
               else best) = _
            rw [if_pos hacc, hres, hM, hMeq]
            have harith : i + 1 + j = i + (j + 1) := by omega
            rw [harith]
        · have hacc2 : accScore best < specMaxScore kws ps := by
            rw [hMeq] at hlt
            exact hlt
          obtain ⟨j, hfj, hres⟩ := (ih (i + 1) best).2 hacc2
          refine ⟨j + 1, ?_, ?_⟩
          · rw [hcons, hpeq, hfj]
            rfl
          · show bestParaAux kws ps (i + 1)
              (if accScore best < paraScore kws p then some (i, paraScore kws p)
               else best) = _
            rw [if_neg hacc, hres, hM, hMeq]
            have harith : i + 1 + j = i + (j + 1) := by omega
            rw [harith]

theorem bestPara_none {kws ps : List (List Char)} (h : bestPara kws ps = none) :
    specMaxScore kws ps = 0 := by
  by_cases hM : 0 < specMaxScore kws ps
  · have := (bestParaAux_spec kws ps 0 none).2 (by simpa [accScore] using hM)
    obtain ⟨j, _, hres⟩ := this
    rw [bestPara] at h
    rw [h] at hres
    exact absurd hres (by simp)
  · omega

theorem bestPara_some {kws ps : List (List Char)} {bi bs : Nat}
    (h : bestPara kws ps = some (bi, bs)) :
    bs = specMaxScore kws ps ∧ specAnchor kws ps = some bi := by
  by_cases hM : 0 < specMaxScore kws ps
  · have := (bestParaAux_spec kws ps 0 none).2 (by simpa [accScore] using hM)
    obtain ⟨j, hfj, hres⟩ := this
    rw [bestPara] at h
    rw [h] at hres
    simp only [Option.some.injEq, Prod.mk.injEq] at hres
    obtain ⟨hbi, hbs⟩ := hres
    refine ⟨hbs, ?_⟩
    unfold specAnchor
    rw [hfj]
    have hji : j = bi := by omega
    rw [hji]
  · have h0 : specMaxScore kws ps ≤ 0 := by omega
    have := (bestParaAux_spec kws ps 0 none).1 (by simpa [accScore] using h0)
    rw [bestPara] at h
    rw [this] at h
    exact absurd h (by simp)

theorem enrichOne_spec (ps : List (List Char)) (img : PImage)
    (h5 : 5 ≤ img.caption.length)
    (hkw : ¬(captionKeywords img.caption = [])) :
    enrichOne ps img =
      { img with rich := some (specEnrichedContext (captionKeywords img.caption)
          ps img.caption) } := by
  have hcap : ¬(img.caption = [] || img.caption.length < 5) = true := by
    simp only [Bool.or_eq_true, decide_eq_true_eq]
    rintro (hnil | hshort)
    · rw [hnil] at h5
      simp at h5
    · omega
  unfold enrichOne
  rw [if_neg hcap, if_neg hkw]
  cases hb : bestPara (captionKeywords img.caption) ps with
  | none =>
    have hM := bestPara_none hb
    show ({ img with rich := some img.caption } : PImage) = _
    unfold specEnrichedContext
    rw [if_neg (by omega)]
  | some pr =>
    obtain ⟨bi, bs⟩ := pr
    obtain ⟨hbs, hanchor⟩ := bestPara_some hb
    show (if 2 ≤ bs then ({ img with rich := some (neighborhood ps bi) } : PImage)
          else { img with rich := some img.caption }) = _
    by_cases h2 : 2 ≤ bs
    · rw [if_pos h2]
      unfold specEnrichedContext
      rw [if_pos (by omega), hanchor]
    · rw [if_neg h2]
      unfold specEnrichedContext
      rw [if_neg (by omega)]

/-- C8 (amended).  For an image whose caption is at least 5 characters long
and yields at least one keyword token, enrichment scores the stripped
paragraph candidates longer than 20 characters by distinct-keyword hits,
anchors at the FIRST paragraph attaining the maximum score provided that
score is at least 2, sets the enriched context to the newline-joined
neighbourhood truncated to 800 characters, and falls back to the original
caption when no paragraph reaches the threshold.  (Images with shorter
captions or with no extractable keywords are skipped entirely — their
enriched context is left unset, not set to the caption; see the
counterexample.) -/
theorem asset_enrichment_amended (fullText : List Char) (imgs : List PImage)
    (img : PImage) (hfull : ¬(fullText = []))
    (hps : ¬(paragraphsOf fullText = [])) (h5 : 5 ≤ img.caption.length)
    (hkw : ¬(captionKeywords img.caption = [])) :
    enrichImageContexts fullText imgs =
      imgs.map (enrichOne (paragraphsOf fullText)) ∧
    enrichOne (paragraphsOf fullText) img =
      { img with rich := some (specEnrichedContext (captionKeywords img.caption)
          (paragraphsOf fullText) img.caption) } := by
  constructor
  · unfold enrichImageContexts
    by_cases himgs : imgs = []
    · subst himgs
      simp
    · rw [if_neg (by simp [himgs, hfull]), if_neg hps]
  · exact enrichOne_spec (paragraphsOf fullText) img h5 hkw

/-- A source text with one qualifying paragraph that mentions `abcd`. -/
def c8Text : List Char := "the abcd keyword appears here today".data

/-- C8 counterexample: the claim prescribes that an image with caption
`"abcd"` (no paragraph can reach 2 keyword hits, the caption having a
single keyword) gets its enriched context set to the original caption; the
code instead skips captions shorter than 5 characters and leaves the
enriched context unset. -/
theorem asset_enrichment_counterexample :
    specMaxScore (captionKeywords ("abcd".data)) (paragraphsOf c8Text) < 2 ∧
    enrichImageContexts c8Text [{ caption := "abcd".data, rich := none }] =
      [{ caption := "abcd".data, rich := none }] ∧
    ¬((enrichImageContexts c8Text
        [{ caption := "abcd".data, rich := none }]).map PImage.rich =
      [some ("abcd".data)]) := by
  refine ⟨by decide, by decide, by decide⟩

/-- A caption yielding two keywords. -/
def c8wCaption : List Char := "abcde fghij".data

/-- A text whose single paragraph contains both keywords. -/
def c8wText : List Char := "this abcde also fghij content okay today".data

theorem asset_enrichment_amended_witness :
    enrichImageContexts c8wText [{ caption := c8wCaption, rich := none }] =
      [{ caption := c8wCaption, rich := none }].map
        (enrichOne (paragraphsOf c8wText)) ∧
    enrichOne (paragraphsOf c8wText) { caption := c8wCaption, rich := none } =
      { caption := c8wCaption,
        rich := some (specEnrichedContext (captionKeywords c8wCaption)
          (paragraphsOf c8wText) c8wCaption) } := by
  have h := asset_enrichment_amended c8wText
    [{ caption := c8wCaption, rich := none }] { caption := c8wCaption, rich := none }
    (by decide) (by decide) (by decide) (by decide)
  exact ⟨h.1, h.2⟩

/-! ## C9: `services._extract_json_from_text` -/

/-- JSON values (numbers kept as their literal text). -/
inductive Json where
  | null : Json
  | bool : Bool → Json
  | num : List Char → Json
  | str : List Char → Json
  | arr : List Json → Json
  | obj : List (List Char × Json) → Json
deriving Repr

/-- JSON whitespace. -/
def skipJWS (s : List Char) : List Char :=
  s.dropWhile (fun c => c = ' ' || c = '\t' || c = '\n' || c = '\r')

/-- The body of a JSON string after the opening quote (escape pairs kept
verbatim). -/
def parseStringBody : List Char → Option (List Char × List Char)
  | [] => none
  | c :: cs =>
    if c = '"' then some ([], cs)
    else if c = '\\' then
      match cs with
      | [] => none
      | e :: cs2 =>
        match parseStringBody cs2 with
        | none => none
        | some (b, r) => some (c :: e :: b, r)
    else
      match parseStringBody cs with
      | none => none
      | some (b, r) => some (c :: b, r)

/-- ASCII digit. -/
def isDigitCh (c : Char) : Bool := '0' ≤ c && c ≤ '9'

/-- A JSON number literal (sign, digits, optional fraction; a model of the
stdlib's number grammar). -/
def parseNumber (s : List Char) : Option (Json × List Char) :=
  let pr := match s with
    | '-' :: r => (('-' :: []), r)
    | _ => (([] : List Char), s)
  let ds := pr.2.takeWhile isDigitCh
  let r1 := pr.2.dropWhile isDigitCh
  if ds = [] then none
  else
    let fr := match r1 with
      | '.' :: r =>
        if r.takeWhile isDigitCh = [] then (([] : List Char), r1)
        else ('.' :: r.takeWhile isDigitCh, r.dropWhile isDigitCh)
      | _ => ([], r1)
    some (Json.num (pr.1 ++ ds ++ fr.1), fr.2)

mutual

/-- Recursive-descent JSON value parser (`fuel` forces termination; the
wrapper supplies enough). -/
def parseValue : Nat → List Char → Option (Json × List Char)
  | 0, _ => none
  | fuel + 1, s =>
    match skipJWS s with
    | [] => none
    | c :: cs =>
      if c = '\x7b' then
        match skipJWS cs with
        | '\x7d' :: r => some (Json.obj [], r)
        | t2 => (parseMembers fuel t2).map (fun pr => (Json.obj pr.1, pr.2))
      else if c = '[' then
        match skipJWS cs with
        | ']' :: r => some (Json.arr [], r)
        | t2 => (parseElems fuel t2).map (fun pr => (Json.arr pr.1, pr.2))
      else if c = '"' then
        (parseStringBody cs).map (fun pr => (Json.str pr.1, pr.2))
      else if c = 't' then
        (dropPref ("rue".data) cs).map (fun r => (Json.bool true, r))
      else if c = 'f' then
        (dropPref ("alse".data) cs).map (fun r => (Json.bool false, r))
      else if c = 'n' then
        (dropPref ("ull".data) cs).map (fun r => (Json.null, r))
      else parseNumber (c :: cs)

/-- Comma-separated array elements up to `']'`. -/
def parseElems : Nat → List Char → Option (List Json × List Char)
  | 0, _ => none
  | fuel + 1, s =>
    match parseValue fuel s with
    | none => none
    | some (v, r) =>
      match skipJWS r with
      | ',' :: r3 => (parseElems fuel r3).map (fun pr => (v :: pr.1, pr.2))
      | ']' :: r3 => some ((v :: []), r3)
      | _ => none

/-- Comma-separated object members up to the closing brace. -/
def parseMembers : Nat → List Char → Option (List (List Char × Json) × List Char)
  | 0, _ => none
  | fuel + 1, s =>
    match skipJWS s with
    | '"' :: cs =>
      (match parseStringBody cs with
       | none => none
       | some (k, r) =>
         match skipJWS r with
         | ':' :: r2 =>
           (match parseValue fuel r2 with
            | none => none
            | some (v, r3) =>
              match skipJWS r3 with
              | ',' :: r4 =>
                (parseMembers fuel r4).map (fun pr => ((k, v) :: pr.1, pr.2))
              | '\x7d' :: r4 => some (((k, v) :: []), r4)
              | _ => none)
         | _ => none)
    | _ => none

end

/-- `json.loads`: parse one value and require only whitespace after it;
`none` stands for `json.JSONDecodeError`. -/
def jsonLoads (s : List Char) : Option Json :=
  match parseValue (s.length + 1) s with
  | some (v, rest) => if skipJWS rest = [] then some v else none
  | none => none

/-- Remainder after the first occurrence of `needle`. -/
def findAfterSeq (needle : List Char) : List Char → Option (List Char)
  | [] => dropPref needle []
  | c :: cs =>
    match dropPref needle (c :: cs) with
    | some rest => some rest
    | none => findAfterSeq needle cs

/-- (text before, remainder after) the first occurrence of `needle`. -/
def findBeforeSeq (needle : List Char) : List Char → Option (List Char × List Char)
  | [] => (dropPref needle []).map (fun r => (([] : List Char), r))
  | c :: cs =>
    match dropPref needle (c :: cs) with
    | some rest => some ([], rest)
    | none =>
      match findBeforeSeq needle cs with
      | none => none
      | some (b, r) => some (c :: b, r)

theorem findAfterSeq_length {needle s r : List Char} (hne : ¬(needle = []))
    (h : findAfterSeq needle s = some r) : r.length < s.length := by
  induction s with
  | nil =>
    cases needle with
    | nil => exact absurd rfl hne
    | cons n ns => exact absurd h (by simp [findAfterSeq, dropPref])
  | cons c cs ih =>
    simp only [findAfterSeq] at h
    cases hd : dropPref needle (c :: cs) with
    | some rest =>
      rw [hd] at h
      have heq := dropPref_length_eq hd
      cases h
      cases needle with
      | nil => exact absurd rfl hne
      | cons n ns =>
        simp only [List.length_cons] at heq ⊢
        omega
    | none =>
      rw [hd] at h
      exact Nat.lt_trans (ih h) (Nat.lt_succ_self _)

theorem findBeforeSeq_length {needle s b r : List Char} (hne : ¬(needle = []))
    (h : findBeforeSeq needle s = some (b, r)) : r.length < s.length := by
  induction s generalizing b r with
  | nil =>
    cases needle with
    | nil => exact absurd rfl hne
    | cons n ns => exact absurd h (by simp [findBeforeSeq, dropPref])
  | cons c cs ih =>
    simp only [findBeforeSeq] at h
    cases hd : dropPref needle (c :: cs) with
    | some rest =>
      rw [hd] at h
      simp only [Option.some.injEq, Prod.mk.injEq] at h
      have heq := dropPref_length_eq hd
      rw [← h.2]
      cases needle with
      | nil => exact absurd rfl hne
      | cons n ns =>
        simp only [List.length_cons] at heq ⊢
        omega
    | none =>
      rw [hd] at h
      cases hf : findBeforeSeq needle cs with
      | none => rw [hf] at h; exact absurd h (by simp)
      | some pr =>
        obtain ⟨b2, r2⟩ := pr
        rw [hf] at h
        simp only [Option.some.injEq, Prod.mk.injEq] at h
        rw [← h.2]
        exact Nat.lt_trans (ih hf) (Nat.lt_succ_self _)

/-- The literal `"<think>"`. -/
def thinkOpenS : List Char := "<think>".data

/-- The literal `"</think>"`. -/
def thinkCloseS : List Char := "</think>".data

/-- One `<think>...</think>` block (non-greedy, closed tag required). -/
def thinkStep (s : List Char) : Option (Unit × List Char) :=
  match dropPref thinkOpenS s with
  | none => none
  | some after =>
    match findAfterSeq thinkCloseS after with
    | none => none
    | some rest => some ((), rest)

theorem thinkStep_shrinking : Shrinking thinkStep := by
  intro s a r h
  unfold thinkStep at h
  split at h
  · exact absurd h (by simp)
  · rename_i after hd
    split at h
    · exact absurd h (by simp)
    · rename_i rest hf
      cases h
      exact Nat.lt_of_lt_of_le
        (findAfterSeq_length (by simp [thinkCloseS]) hf) (dropPref_length hd)

/-- `re.sub(r'(?s)<think>.*?</think>', '', text)`. -/
def stripThink (s : List Char) : List Char :=
  let pr := scanAll thinkStep s
  pr.1 ++ pr.2.flatMap (fun p => p.2)

/-- The markdown fence literal. -/
def ticksS : List Char := "```".data

/-- The literal `"json"` of the optional fence language tag. -/
def jsonWordS : List Char := "json".data

/-- One match of ``` ```(?:json)?\s*([\s\S]*?)``` ``` at the current
position: the captured content and the remainder. -/
def fenceStep (s : List Char) : Option (List Char × List Char) :=
  match dropPref ticksS s with
  | none => none
  | some after =>
    let after2 := match dropPref jsonWordS after with
      | some a => a
      | none => after
    findBeforeSeq ticksS (after2.dropWhile isPyWS)

theorem fenceStep_shrinking : Shrinking fenceStep := by
  intro s a r h
  unfold fenceStep at h
  split at h
  · exact absurd h (by simp)
  · rename_i after hd
    have hafter : after.length ≤ s.length := dropPref_length hd
    have htne : ¬(ticksS = []) := by simp [ticksS]
    split at h
    · rename_i a2 hj
      have hdw : (a2.dropWhile isPyWS).length ≤ a2.length :=
        (List.dropWhile_suffix _).sublist.length_le
      have hblen := findBeforeSeq_length htne h
      have hj2 := dropPref_length hj
      omega
    · have hdw : (after.dropWhile isPyWS).length ≤ after.length :=
        (List.dropWhile_suffix _).sublist.length_le
      have hblen := findBeforeSeq_length htne h
      omega

/-- `re.search` of the fenced-JSON pattern: the first match's capture. -/
def fenceSearch (s : List Char) : Option (List Char) :=
  ((scanAll fenceStep s).2.head?).map (fun p => p.1)

/-- `re.search(r'(?s)(\x7b.*\x7d)', text)` (greedy): from the first
occurrence of `oc` through the last occurrence of `cc`. -/
def braceSpan (oc cc : Char) (s : List Char) : Option (List Char) :=
  match s.dropWhile (fun c => !(c = oc)) with
  | [] => none
  | c :: cs =>
    match ((c :: cs).reverse.dropWhile (fun x => !(x = cc))) with
    | [] => none
    | rev => some rev.reverse

/-- Python exceptions at this boundary. -/
inductive PyErr where
  | jsonDecodeError : PyErr
  | otherErr : PyErr
deriving DecidableEq, Repr

/-- `json.loads` in the exception model: the only exception it raises is
`json.JSONDecodeError`. -/
def jsonLoadsE (s : List Char) : Except PyErr Json :=
  match jsonLoads s with
  | some v => Except.ok v
  | none => Except.error PyErr.jsonDecodeError

/-- `try: ... except json.JSONDecodeError: <handler>` — any other
exception would propagate. -/
def catchDecode (x : Except PyErr (Option Json))
    (h : Unit → Except PyErr (Option Json)) : Except PyErr (Option Json) :=
  match x with
  | Except.error PyErr.jsonDecodeError => h ()
  | other => other

/-- One guarded `json.loads` attempt returning its value on success. -/
def tryCand (s : List Char) (k : Unit → Except PyErr (Option Json)) :
    Except PyErr (Option Json) :=
  catchDecode ((jsonLoadsE s).map some) k

/-- The final brute-force candidate loop (unparsable candidates are
skipped; an empty list yields `None`). -/
def tryCands : List (List Char) → Except PyErr (Option Json)
  | [] => Except.ok none
  | c :: cs => tryCand c (fun _ => tryCands cs)

/-- `_extract_json_from_text`: empty input answers `None`; otherwise strip,
remove closed `<think>` blocks, re-strip, then: direct parse, fenced-block
parse, and finally the greedy brace/bracket candidates. -/
def extractJsonFromText (text : List Char) : Except PyErr (Option Json) :=
  if text = [] then Except.ok none
  else
    let t := stripWS (stripThink (stripWS text))
    tryCand t (fun _ =>
      let cands :=
        ((braceSpan '\x7b' '\x7d' t).toList ++ (braceSpan '[' ']' t).toList).map
          stripWS
      match fenceSearch t with
      | some g => tryCand (stripWS g) (fun _ => tryCands cands)
      | none => tryCands cands)

theorem jsonLoadsE_ok_or_decode (s : List Char) :
    (∃ v, jsonLoadsE s = Except.ok v) ∨
      jsonLoadsE s = Except.error PyErr.jsonDecodeError := by
  unfold jsonLoadsE
  cases jsonLoads s with
  | some v => exact Or.inl ⟨v, rfl⟩
  | none => exact Or.inr rfl

theorem tryCand_ok (s : List Char) (k : Unit → Except PyErr (Option Json))
    (hk : ∃ r, k () = Except.ok r) : ∃ r, tryCand s k = Except.ok r := by
  unfold tryCand catchDecode
  rcases jsonLoadsE_ok_or_decode s with ⟨v, hv⟩ | hv
  · rw [hv]
    exact ⟨some v, rfl⟩
  · rw [hv]
    exact hk

theorem tryCands_ok (l : List (List Char)) :
    ∃ r, tryCands l = Except.ok r := by
  induction l with
  | nil => exact ⟨none, rfl⟩
  | cons c cs ih => exact tryCand_ok c _ ih

/-- C9.  The JSON extractor is total: for every input string — empty,
non-JSON, markdown-fenced, or containing closed `<think>` blocks (which
are stripped before extraction) — it returns normally, with either a
parsed JSON value or `None`, and never lets an exception escape (the only
exception its internals raise, `json.JSONDecodeError`, is caught at every
call site). -/
theorem extract_json_total (text : List Char) :
    ∃ r : Option Json, extractJsonFromText text = Except.ok r := by
  unfold extractJsonFromText
  split
  · exact ⟨none, rfl⟩
  · apply tryCand_ok
    cases hf : fenceSearch (stripWS (stripThink (stripWS text))) with
    | some g => exact tryCand_ok _ _ (tryCands_ok _)
    | none => exact tryCands_ok _

end PaperGen
